import Mathlib

/-!
# Verification of the front-to-grid rasterization subsystem

Shallow embedding of `generalexam/ge_utils/front_utils.py`: conversion of
frontal polylines into labeled raster grids, morphological dilation/closing,
region extraction, and thermal-advection classification.

A label grid is modelled as a function from integer (row, column) coordinates
to integer labels, together with explicit dimensions `(R, C)`; the function is
meaningful only on the window `0 ≤ i < R ∧ 0 ≤ j < C`, mirroring an `M×N`
numpy array.  Coordinates in physical units are modelled as rationals.
-/

namespace FrontUtils

/-- Integer label for grid cells not intersected by any front. -/
def NO_FRONT_INTEGER_ID : ℤ := 0

/-- Integer label for grid cells intersected by a warm front. -/
def WARM_FRONT_INTEGER_ID : ℤ := 1

/-- Integer label for grid cells intersected by a cold front. -/
def COLD_FRONT_INTEGER_ID : ℤ := 2

/-- Integer label used in the binary per-type images. -/
def ANY_FRONT_INTEGER_ID : ℤ := 1

/-- String identifier for warm fronts. -/
def WARM_FRONT_STRING_ID : String := "warm"

/-- String identifier for cold fronts. -/
def COLD_FRONT_STRING_ID : String := "cold"

/-- A label grid: integer value at each (row, column) position.  Only the
window `0 ≤ i < R ∧ 0 ≤ j < C` corresponds to the numpy array. -/
abbrev Grid := ℤ → ℤ → ℤ

/-- Membership of a cell in the `R×C` array window. -/
def inWindow (R C : ℕ) (p : ℤ × ℤ) : Prop :=
  0 ≤ p.1 ∧ p.1 < (R : ℤ) ∧ 0 ≤ p.2 ∧ p.2 < (C : ℤ)

instance (R C : ℕ) (p : ℤ × ℤ) : Decidable (inWindow R C p) := by
  unfold inWindow; infer_instance

/-- All cells of the `R×C` window in row-major order — the order in which
`numpy.where` enumerates the `True` positions of a 2-D array. -/
def window (R C : ℕ) : List (ℤ × ℤ) :=
  (List.range R).flatMap fun (i : ℕ) =>
    (List.range C).map fun (j : ℕ) => ((i : ℤ), (j : ℤ))

/-- The all-zero (`NO_FRONT_INTEGER_ID`) grid produced by `numpy.full`. -/
def zeroGrid : Grid := fun _ _ => NO_FRONT_INTEGER_ID

/-- Pointwise update of a grid at a single cell (`array[i, j] = v`). -/
def setCell (g : Grid) (p : ℤ × ℤ) (v : ℤ) : Grid :=
  fun i j => if i = p.1 ∧ j = p.2 then v else g i j

/-- Fancy-index assignment `array[rows, cols] = v`: write the value `v` at
every listed cell, later writes last (all writes carry the same value here,
exactly as in the source). -/
def writePoints (g : Grid) (pts : List (ℤ × ℤ)) (v : ℤ) : Grid :=
  pts.foldl (fun h p => setCell h p v) g

/-- The four index arrays returned by `frontal_grid_to_points`, with the row
and column arrays of each front type zipped into one list of (row, column)
pairs (`warm_front_row_indices`/`warm_front_column_indices` and likewise for
cold). -/
structure FrontalGridDict where
  warm : List (ℤ × ℤ)
  cold : List (ℤ × ℤ)
  deriving Repr, DecidableEq

/-- `frontal_grid_to_points`: list the cells equal to `WARM_FRONT_INTEGER_ID`
and the cells equal to `COLD_FRONT_INTEGER_ID`, each in the row-major order of
`numpy.where`. -/
def frontal_grid_to_points (R C : ℕ) (g : Grid) : FrontalGridDict :=
  { warm := (window R C).filter fun p => g p.1 p.2 = WARM_FRONT_INTEGER_ID
    cold := (window R C).filter fun p => g p.1 p.2 = COLD_FRONT_INTEGER_ID }

/-- `frontal_points_to_grid`: start from the all-zero grid, assign
`WARM_FRONT_INTEGER_ID` at the warm cells, then `COLD_FRONT_INTEGER_ID` at the
cold cells (the order of the two fancy-index assignments in the source). -/
def frontal_points_to_grid (d : FrontalGridDict) : Grid :=
  writePoints (writePoints zeroGrid d.warm WARM_FRONT_INTEGER_ID)
    d.cold COLD_FRONT_INTEGER_ID

lemma setCell_apply (g : Grid) (p : ℤ × ℤ) (v : ℤ) (i j : ℤ) :
    setCell g p v i j = if i = p.1 ∧ j = p.2 then v else g i j := rfl

lemma writePoints_cons (g : Grid) (q : ℤ × ℤ) (rest : List (ℤ × ℤ)) (v : ℤ) :
    writePoints g (q :: rest) v = writePoints (setCell g q v) rest v := rfl

lemma writePoints_apply (pts : List (ℤ × ℤ)) (g : Grid) (v : ℤ) (i j : ℤ) :
    writePoints g pts v i j = if (i, j) ∈ pts then v else g i j := by
  induction pts generalizing g with
  | nil => simp [writePoints]
  | cons q rest ih =>
    rw [writePoints_cons, ih]
    by_cases hmem : (i, j) ∈ rest
    · simp [hmem]
    · by_cases hq : (i, j) = q
      · have : i = q.1 ∧ j = q.2 := by
          constructor <;> simp [← hq]
        simp [hmem, hq, setCell, this]
      · have : ¬(i = q.1 ∧ j = q.2) := by
          intro h
          exact hq (Prod.ext h.1 h.2)
        simp [hmem, hq, setCell, this]

lemma mem_window (R C : ℕ) (a b : ℤ) :
    (a, b) ∈ window R C ↔ inWindow R C (a, b) := by
  unfold window inWindow
  rw [List.mem_flatMap]
  constructor
  · rintro ⟨i, hi, hmem⟩
    rw [List.mem_map] at hmem
    obtain ⟨j, hj, heq⟩ := hmem
    cases heq
    rw [List.mem_range] at hi hj
    refine ⟨by omega, by omega, by omega, by omega⟩
  · rintro ⟨ha, ha', hb, hb'⟩
    refine ⟨a.toNat, by rw [List.mem_range]; omega, ?_⟩
    rw [List.mem_map]
    refine ⟨b.toNat, by rw [List.mem_range]; omega, ?_⟩
    rw [Int.toNat_of_nonneg ha, Int.toNat_of_nonneg hb]

lemma mem_window' (R C : ℕ) (p : ℤ × ℤ) :
    p ∈ window R C ↔ inWindow R C p := by
  obtain ⟨a, b⟩ := p
  exact mem_window R C a b

lemma frontal_points_to_grid_apply (d : FrontalGridDict) (i j : ℤ) :
    frontal_points_to_grid d i j =
      if (i, j) ∈ d.cold then COLD_FRONT_INTEGER_ID
      else if (i, j) ∈ d.warm then WARM_FRONT_INTEGER_ID
      else NO_FRONT_INTEGER_ID := by
  unfold frontal_points_to_grid
  rw [writePoints_apply, writePoints_apply]
  rfl

/-- **C1.** Round-trip law of the Rasterizer: if every warm and cold index
pair is inside the `R×C` window, the lists have no duplicates, and no cell is
listed as both warm and cold, then `frontal_grid_to_points` applied to
`frontal_points_to_grid` recovers exactly the original warm and cold index
sets (order-insensitive set equality). -/
theorem points_to_grid_roundtrip (R C : ℕ) (d : FrontalGridDict)
    (hwarmIn : ∀ p ∈ d.warm, inWindow R C p)
    (hcoldIn : ∀ p ∈ d.cold, inWindow R C p)
    (hwarmNd : d.warm.Nodup) (hcoldNd : d.cold.Nodup)
    (hdisj : ∀ p, p ∈ d.warm → p ∉ d.cold) :
    (∀ p, p ∈ (frontal_grid_to_points R C (frontal_points_to_grid d)).warm ↔
        p ∈ d.warm) ∧
    (∀ p, p ∈ (frontal_grid_to_points R C (frontal_points_to_grid d)).cold ↔
        p ∈ d.cold) := by
  constructor <;> rintro ⟨a, b⟩ <;>
    simp only [frontal_grid_to_points, List.mem_filter, mem_window,
      frontal_points_to_grid_apply, decide_eq_true_eq]
  · constructor
    · rintro ⟨-, hval⟩
      by_cases hc : (a, b) ∈ d.cold
      · simp [hc, COLD_FRONT_INTEGER_ID, WARM_FRONT_INTEGER_ID] at hval
      · by_cases hw : (a, b) ∈ d.warm
        · exact hw
        · simp [hc, hw, NO_FRONT_INTEGER_ID, WARM_FRONT_INTEGER_ID] at hval
    · intro hw
      have hc : (a, b) ∉ d.cold := hdisj _ hw
      exact ⟨hwarmIn _ hw, by simp [hc, hw]⟩
  · constructor
    · rintro ⟨-, hval⟩
      by_cases hc : (a, b) ∈ d.cold
      · exact hc
      · by_cases hw : (a, b) ∈ d.warm <;>
          simp [hc, hw, NO_FRONT_INTEGER_ID, WARM_FRONT_INTEGER_ID,
            COLD_FRONT_INTEGER_ID] at hval
    · intro hc
      exact ⟨hcoldIn _ hc, by simp [hc]⟩

/-- Concrete instantiation of the round-trip law on a 3×4 grid with two warm
cells and one cold cell. -/
theorem points_to_grid_roundtrip_witness :
    ((∀ p ∈ ([((0 : ℤ), (1 : ℤ)), (2, 3)] : List (ℤ × ℤ)), inWindow 3 4 p) ∧
     (∀ p ∈ ([((1 : ℤ), (1 : ℤ))] : List (ℤ × ℤ)), inWindow 3 4 p) ∧
     ([((0 : ℤ), (1 : ℤ)), (2, 3)] : List (ℤ × ℤ)).Nodup ∧
     ([((1 : ℤ), (1 : ℤ))] : List (ℤ × ℤ)).Nodup ∧
     (∀ p, p ∈ ([((0 : ℤ), (1 : ℤ)), (2, 3)] : List (ℤ × ℤ)) →
        p ∉ ([((1 : ℤ), (1 : ℤ))] : List (ℤ × ℤ)))) ∧
    ((∀ p, p ∈ (frontal_grid_to_points 3 4 (frontal_points_to_grid
          ⟨[(0, 1), (2, 3)], [(1, 1)]⟩)).warm ↔
        p ∈ ([((0 : ℤ), (1 : ℤ)), (2, 3)] : List (ℤ × ℤ))) ∧
     (∀ p, p ∈ (frontal_grid_to_points 3 4 (frontal_points_to_grid
          ⟨[(0, 1), (2, 3)], [(1, 1)]⟩)).cold ↔
        p ∈ ([((1 : ℤ), (1 : ℤ))] : List (ℤ × ℤ)))) :=
  ⟨⟨by decide, by decide, by decide, by decide, by decide⟩,
    points_to_grid_roundtrip 3 4 ⟨[(0, 1), (2, 3)], [(1, 1)]⟩
      (by decide) (by decide) (by decide) (by decide) (by decide)⟩

/-! ## Binary morphology: dilation, erosion and closing

`STRUCTURE_MATRIX_FOR_BINARY_CLOSING = numpy.ones((3, 3))` is represented by
its set of offsets from the center cell.  `scipy.ndimage.binary_closing`
performs a binary dilation followed by a binary erosion, both with border
value 0: cells outside the array never count as foreground, so erosion fails
wherever the structuring element sticks out of the array. -/

/-- The nine relative offsets of the 3×3 all-ones structuring element. -/
def nineOffsets : List (ℤ × ℤ) :=
  [(-1, -1), (-1, 0), (-1, 1), (0, -1), (0, 0), (0, 1), (1, -1), (1, 0), (1, 1)]

/-- A binary (boolean) image over the `R×C` window. -/
abbrev BGrid := ℤ → ℤ → Bool

/-- Binary dilation with the 3×3 all-ones structuring element and border
value 0 (`scipy.ndimage.binary_dilation`): a cell is set iff some neighbour
inside the array is set. -/
def binary_dilation (R C : ℕ) (X : BGrid) : BGrid := fun i j =>
  decide (inWindow R C (i, j)) &&
    nineOffsets.any fun o =>
      decide (inWindow R C (i + o.1, j + o.2)) && X (i + o.1) (j + o.2)

/-- Binary erosion with the 3×3 all-ones structuring element and border
value 0 (`scipy.ndimage.binary_erosion`): a cell survives iff its whole 3×3
neighbourhood lies inside the array and is set. -/
def binary_erosion (R C : ℕ) (X : BGrid) : BGrid := fun i j =>
  decide (inWindow R C (i, j)) &&
    nineOffsets.all fun o =>
      decide (inWindow R C (i + o.1, j + o.2)) && X (i + o.1) (j + o.2)

/-- `scipy.ndimage.binary_closing` with `structure=STRUCTURE_MATRIX_FOR_BINARY_CLOSING`,
`origin=0`, `iterations=1`: dilation followed by erosion. -/
def binary_closing (R C : ℕ) (X : BGrid) : BGrid :=
  binary_erosion R C (binary_dilation R C X)

lemma binary_dilation_eq_true (R C : ℕ) (X : BGrid) (i j : ℤ) :
    binary_dilation R C X i j = true ↔
      inWindow R C (i, j) ∧ ∃ o ∈ nineOffsets,
        inWindow R C (i + o.1, j + o.2) ∧ X (i + o.1) (j + o.2) = true := by
  simp [binary_dilation, List.any_eq_true]

lemma binary_erosion_eq_true (R C : ℕ) (X : BGrid) (i j : ℤ) :
    binary_erosion R C X i j = true ↔
      inWindow R C (i, j) ∧ ∀ o ∈ nineOffsets,
        inWindow R C (i + o.1, j + o.2) ∧ X (i + o.1) (j + o.2) = true := by
  simp [binary_erosion, List.all_eq_true]

lemma neg_mem_nineOffsets : ∀ o ∈ nineOffsets, (-o.1, -o.2) ∈ nineOffsets := by
  decide

lemma binary_erosion_mono (R C : ℕ) (X Y : BGrid)
    (h : ∀ i j, X i j = true → Y i j = true) (i j : ℤ)
    (hx : binary_erosion R C X i j = true) : binary_erosion R C Y i j = true := by
  rw [binary_erosion_eq_true] at hx ⊢
  exact ⟨hx.1, fun o ho => ⟨(hx.2 o ho).1, h _ _ (hx.2 o ho).2⟩⟩

/-- Anti-extensivity of opening: dilating an erosion of `Y` never leaves `Y`. -/
lemma dilation_of_erosion_le (R C : ℕ) (Y : BGrid) (i j : ℤ)
    (h : binary_dilation R C (binary_erosion R C Y) i j = true) :
    Y i j = true := by
  rw [binary_dilation_eq_true] at h
  obtain ⟨-, o, ho, -, he⟩ := h
  rw [binary_erosion_eq_true] at he
  have := (he.2 (-o.1, -o.2) (neg_mem_nineOffsets o ho)).2
  have harith1 : i + o.1 + (-o.1, -o.2).1 = i := by simp
  have harith2 : j + o.2 + (-o.1, -o.2).2 = j := by simp
  rwa [harith1, harith2] at this

/-- An erosion is contained in the erosion of the dilation of itself. -/
lemma erosion_le_closing (R C : ℕ) (Y : BGrid) (i j : ℤ)
    (h : binary_erosion R C Y i j = true) :
    binary_erosion R C (binary_dilation R C (binary_erosion R C Y)) i j
      = true := by
  have hY := (binary_erosion_eq_true R C Y i j).mp h
  rw [binary_erosion_eq_true]
  refine ⟨hY.1, fun o ho => ⟨(hY.2 o ho).1, ?_⟩⟩
  rw [binary_dilation_eq_true]
  refine ⟨(hY.2 o ho).1, (-o.1, -o.2), neg_mem_nineOffsets o ho, ?_, ?_⟩
  · have harith1 : i + o.1 + (-o.1, -o.2).1 = i := by simp
    have harith2 : j + o.2 + (-o.1, -o.2).2 = j := by simp
    rw [harith1, harith2]
    exact hY.1
  · have harith1 : i + o.1 + (-o.1, -o.2).1 = i := by simp
    have harith2 : j + o.2 + (-o.1, -o.2).2 = j := by simp
    rw [harith1, harith2]
    exact h

/-- **C9.** Closing idempotence: the binary closing used by the pipeline
(3×3 all-ones structuring element, one iteration, border value 0, exactly as
applied per front type in `_close_frontal_grid_matrix`) applied twice yields
the same mask as applied once, for every binary mask and every grid size. -/
theorem binary_closing_idempotent (R C : ℕ) (X : BGrid) :
    binary_closing R C (binary_closing R C X) = binary_closing R C X := by
  funext i j
  unfold binary_closing
  rcases hlhs : binary_erosion R C
      (binary_dilation R C (binary_erosion R C (binary_dilation R C X))) i j with _ | _
  · rcases hrhs : binary_erosion R C (binary_dilation R C X) i j with _ | _
    · rfl
    · exact absurd (erosion_le_closing R C (binary_dilation R C X) i j hrhs)
        (by rw [hlhs]; simp)
  · have := binary_erosion_mono R C
      (binary_dilation R C (binary_erosion R C (binary_dilation R C X)))
      (binary_dilation R C X)
      (fun a b hab => dilation_of_erosion_le R C (binary_dilation R C X) a b hab)
      i j hlhs
    rw [this]

/-! ## Thermal-advection classification

`numpy.gradient(theta, dy, dx)` returns the gradient along axis 0 (rows,
spacing `dy`) and axis 1 (columns, spacing `dx`): central differences at
interior points, one-sided first-order differences at the two boundary
rows/columns (the default `edge_order=1`).  Physical fields are rationals. -/

/-- A rational-valued field over the `R×C` window. -/
abbrev QGrid := ℤ → ℤ → ℚ

/-- `numpy.gradient` along axis 0 (rows), spacing `dy`; requires `R ≥ 2`. -/
def numpy_gradient_axis0 (R : ℕ) (dy : ℚ) (f : QGrid) : QGrid := fun i j =>
  if i = 0 then (f 1 j - f 0 j) / dy
  else if i = (R : ℤ) - 1 then (f i j - f (i - 1) j) / dy
  else (f (i + 1) j - f (i - 1) j) / (2 * dy)

/-- `numpy.gradient` along axis 1 (columns), spacing `dx`; requires `C ≥ 2`. -/
def numpy_gradient_axis1 (C : ℕ) (dx : ℚ) (f : QGrid) : QGrid := fun i j =>
  if j = 0 then (f i 1 - f i 0) / dx
  else if j = (C : ℤ) - 1 then (f i j - f i (j - 1)) / dx
  else (f i (j + 1) - f i (j - 1)) / (2 * dx)

/-- `_get_thermal_advection_over_grid`: minus the dot product of the wind
vector with the gradient of the thermal parameter. -/
def _get_thermal_advection_over_grid (R C : ℕ) (u v theta : QGrid)
    (dx dy : ℚ) : QGrid := fun i j =>
  -(u i j * numpy_gradient_axis1 C dx theta i j +
    v i j * numpy_gradient_axis0 R dy theta i j)

/-- `get_frontal_types_over_grid`: write `WARM_FRONT_INTEGER_ID` at the cells
where the advection is positive and the front mask is set, then
`COLD_FRONT_INTEGER_ID` at the cells where the advection is non-positive and
the front mask is set, over an all-zero grid. -/
def get_frontal_types_over_grid (R C : ℕ) (u v theta : QGrid)
    (mask : ℤ → ℤ → Bool) (dx dy : ℚ) : Grid :=
  let adv := _get_thermal_advection_over_grid R C u v theta dx dy
  let warmIdx := (window R C).filter fun p =>
    decide (0 < adv p.1 p.2) && mask p.1 p.2
  let coldIdx := (window R C).filter fun p =>
    decide (adv p.1 p.2 ≤ 0) && mask p.1 p.2
  writePoints (writePoints zeroGrid warmIdx WARM_FRONT_INTEGER_ID)
    coldIdx COLD_FRONT_INTEGER_ID

lemma get_frontal_types_pointwise (R C : ℕ) (u v theta : QGrid)
    (mask : ℤ → ℤ → Bool) (dx dy : ℚ) (a b : ℤ) (hin : inWindow R C (a, b)) :
    (get_frontal_types_over_grid R C u v theta mask dx dy a b
        = WARM_FRONT_INTEGER_ID ↔
      mask a b = true ∧
        0 < _get_thermal_advection_over_grid R C u v theta dx dy a b) ∧
    (get_frontal_types_over_grid R C u v theta mask dx dy a b
        = COLD_FRONT_INTEGER_ID ↔
      mask a b = true ∧
        _get_thermal_advection_over_grid R C u v theta dx dy a b ≤ 0) ∧
    (mask a b = false →
      get_frontal_types_over_grid R C u v theta mask dx dy a b
        = NO_FRONT_INTEGER_ID) := by
  have happ : ∀ i j, get_frontal_types_over_grid R C u v theta mask dx dy i j =
      if (i, j) ∈ (window R C).filter fun p =>
          decide (_get_thermal_advection_over_grid R C u v theta dx dy
            p.1 p.2 ≤ 0) && mask p.1 p.2
      then COLD_FRONT_INTEGER_ID
      else if (i, j) ∈ (window R C).filter fun p =>
          decide (0 < _get_thermal_advection_over_grid R C u v theta dx dy
            p.1 p.2) && mask p.1 p.2
      then WARM_FRONT_INTEGER_ID
      else NO_FRONT_INTEGER_ID := by
    intro i j
    unfold get_frontal_types_over_grid
    rw [writePoints_apply, writePoints_apply]
    rfl
  rw [happ a b]
  simp only [List.mem_filter, mem_window, Bool.and_eq_true, decide_eq_true_eq]
  by_cases hm : mask a b = true
  · rcases le_or_lt (_get_thermal_advection_over_grid R C u v theta dx dy a b) 0
      with hle | hlt
    · rw [if_pos ⟨hin, hle, hm⟩]
      refine ⟨?_, ?_, ?_⟩
      · simp only [COLD_FRONT_INTEGER_ID, WARM_FRONT_INTEGER_ID]
        constructor
        · intro h; exact absurd h (by norm_num)
        · rintro ⟨-, hpos⟩; exact absurd hle (not_le.mpr hpos)
      · exact ⟨fun _ => ⟨hm, hle⟩, fun _ => rfl⟩
      · intro hf; rw [hm] at hf; exact absurd hf (by simp)
    · rw [if_neg (by rintro ⟨-, hle, -⟩; exact absurd hlt (not_lt.mpr hle)),
        if_pos ⟨hin, hlt, hm⟩]
      refine ⟨⟨fun _ => ⟨hm, hlt⟩, fun _ => rfl⟩, ?_, ?_⟩
      · simp only [COLD_FRONT_INTEGER_ID, WARM_FRONT_INTEGER_ID]
        constructor
        · intro h; exact absurd h (by norm_num)
        · rintro ⟨-, hle⟩; exact absurd hlt (not_lt.mpr hle)
      · intro hf; rw [hm] at hf; exact absurd hf (by simp)
  · rw [if_neg (by rintro ⟨-, -, hm'⟩; exact hm hm'),
      if_neg (by rintro ⟨-, -, hm'⟩; exact hm hm')]
    refine ⟨?_, ?_, fun _ => rfl⟩
    · constructor
      · intro h
        exact absurd h (by norm_num [NO_FRONT_INTEGER_ID, WARM_FRONT_INTEGER_ID])
      · rintro ⟨hm', -⟩; exact absurd hm' hm
    · constructor
      · intro h
        exact absurd h (by norm_num [NO_FRONT_INTEGER_ID, COLD_FRONT_INTEGER_ID])
      · rintro ⟨hm', -⟩; exact absurd hm' hm

/-- **C8.** Thermal-advection classification boundary policy: on every grid
with at least two rows and columns, `get_frontal_types_over_grid` assigns the
warm-front label exactly at mask cells with advection strictly greater than
zero, the cold-front label exactly at mask cells with advection less than or
equal to zero, and leaves cells outside the mask as no-front; moreover with
`u = 1`, `v = 0` and a thermal field with constant positive x-gradient `c` on
a 3×3 grid, every mask cell is classified cold-front. -/
theorem get_frontal_types_boundary_policy (R C : ℕ) (u v theta : QGrid)
    (mask : ℤ → ℤ → Bool) (dx dy : ℚ) (hR : 2 ≤ R) (hC : 2 ≤ C) :
    (∀ a b : ℤ, inWindow R C (a, b) →
      (get_frontal_types_over_grid R C u v theta mask dx dy a b
          = WARM_FRONT_INTEGER_ID ↔
        mask a b = true ∧
          0 < _get_thermal_advection_over_grid R C u v theta dx dy a b) ∧
      (get_frontal_types_over_grid R C u v theta mask dx dy a b
          = COLD_FRONT_INTEGER_ID ↔
        mask a b = true ∧
          _get_thermal_advection_over_grid R C u v theta dx dy a b ≤ 0) ∧
      (mask a b = false →
        get_frontal_types_over_grid R C u v theta mask dx dy a b
          = NO_FRONT_INTEGER_ID)) ∧
    (∀ c : ℚ, 0 < c → ∀ mask3 : ℤ → ℤ → Bool, ∀ a b : ℤ,
      inWindow 3 3 (a, b) → mask3 a b = true →
      get_frontal_types_over_grid 3 3 (fun _ _ => 1) (fun _ _ => 0)
          (fun _ j => c * j) mask3 1 1 a b = COLD_FRONT_INTEGER_ID) := by
  constructor
  · exact fun a b hin => get_frontal_types_pointwise R C u v theta mask dx dy a b hin
  · intro c hc mask3 a b hin hm
    have hb : b = 0 ∨ b = 1 ∨ b = 2 := by
      obtain ⟨-, -, h3, h4⟩ := hin
      omega
    have hgrad : numpy_gradient_axis1 3 1 (fun _ j => c * j) a b = c := by
      rcases hb with hb | hb | hb <;> subst hb <;>
        norm_num [numpy_gradient_axis1] <;> ring_nf
    have hadv : _get_thermal_advection_over_grid 3 3 (fun _ _ => 1)
        (fun _ _ => 0) (fun _ j => c * j) 1 1 a b = -c := by
      unfold _get_thermal_advection_over_grid
      rw [hgrad]
      ring
    exact ((get_frontal_types_pointwise 3 3 (fun _ _ => 1) (fun _ _ => 0)
      (fun _ j => c * j) mask3 1 1 a b hin).2.1).mpr
      ⟨hm, by rw [hadv]; linarith⟩

/-- Concrete instantiation of the advection boundary policy on a 3×3 grid:
with `c = 1` and the all-true mask, the theorem applies and cell (1, 1) is
classified cold-front. -/
theorem get_frontal_types_boundary_policy_witness :
    (2 ≤ 3 ∧ 2 ≤ 3 ∧ 0 < (1 : ℚ) ∧ inWindow 3 3 ((1 : ℤ), (1 : ℤ)) ∧
      (fun _ _ : ℤ => true) 1 1 = true) ∧
    get_frontal_types_over_grid 3 3 (fun _ _ => 1) (fun _ _ => 0)
      (fun _ j => (1 : ℚ) * j) (fun _ _ => true) 1 1 1 1
      = COLD_FRONT_INTEGER_ID :=
  ⟨⟨by decide, by decide, by norm_num, by decide, rfl⟩,
    (get_frontal_types_boundary_policy 3 3 (fun _ _ => 1) (fun _ _ => 0)
      (fun _ j => (1 : ℚ) * j) (fun _ _ => true) 1 1
      (by decide) (by decide)).2 1 (by norm_num) (fun _ _ => true) 1 1
      (by decide) rfl⟩

/-! ## Buffer-distance kernel construction

`buffer_distance_to_narr_mask` obtains the NARR grid spacing from the
external collaborator `nwp_model_utils.get_xy_grid_spacing`; the NARR
x/y spacing is 32463 metres.  The spacing is kept as an explicit parameter
and the NARR value as a named constant.  The comparison
`grid_spacing * sqrt(r² + c²) <= buffer_distance` is expressed with both
sides squared (both are non-negative), keeping the arithmetic rational. -/

instance {ε α : Type _} [DecidableEq ε] [DecidableEq α] :
    DecidableEq (Except ε α)
  | Except.error a, Except.error b => decidable_of_iff (a = b) (by simp)
  | Except.error _, Except.ok _ => isFalse (by simp)
  | Except.ok _, Except.error _ => isFalse (by simp)
  | Except.ok a, Except.ok b => decidable_of_iff (a = b) (by simp)

/-- NARR grid spacing in metres (value returned by the external
`nwp_model_utils.get_xy_grid_spacing` for the NARR model). -/
def narrGridSpacingMetres : ℚ := 32463

/-- `buffer_distance_to_narr_mask`: asserts the buffer distance is strictly
positive, coerces it to at least 1 (metre), computes the maximum offset
`floor(buffer_distance / grid_spacing)`, and builds the square boolean kernel
of cells within the Euclidean buffer distance. -/
def buffer_distance_to_narr_mask (spacing d0 : ℚ) :
    Except String (List (List Bool)) :=
  if ¬0 < d0 then Except.error "assert_is_greater failed: input must exceed 0"
  else
    let d := max d0 1
    let k : ℕ := (Int.floor (d / spacing)).toNat
    let offsets : List ℚ := (List.range (2 * k + 1)).map fun (t : ℕ) =>
      (t : ℚ) - (k : ℚ)
    Except.ok (offsets.map fun r => offsets.map fun c =>
      decide (spacing ^ 2 * (r ^ 2 + c ^ 2) ≤ d ^ 2))

/-- The dilation-distance coercion on the polyline path
(`polyline_to_binary_narr_grid`): asserts the distance is non-negative and
coerces it to at least 1 (metre). -/
def polyline_path_dilation_distance (d : ℚ) : Except String ℚ :=
  if ¬0 ≤ d then Except.error "assert_is_geq failed: input must be at least 0"
  else Except.ok (max d 1)

lemma buffer_mask_one_metre :
    buffer_distance_to_narr_mask narrGridSpacingMetres 1 = Except.ok [[true]] := by
  unfold buffer_distance_to_narr_mask narrGridSpacingMetres
  rw [if_neg (by norm_num)]
  have hk : (⌊((1 : ℚ) ⊔ 1) / 32463⌋).toNat = 0 := by norm_num
  simp only [hk]
  norm_num [List.range_succ]

lemma buffer_mask_one_spacing :
    buffer_distance_to_narr_mask narrGridSpacingMetres narrGridSpacingMetres =
      Except.ok [[false, true, false], [true, true, true],
        [false, true, false]] := by
  unfold buffer_distance_to_narr_mask narrGridSpacingMetres
  rw [if_neg (by norm_num)]
  have hk : (⌊((32463 : ℚ) ⊔ 1) / 32463⌋).toNat = 1 := by norm_num
  simp only [hk]
  norm_num [List.range_succ]

lemma max_zero_one_rat : ((0 : ℚ) ⊔ 1) = 1 := by norm_num

/-- **C5 (counterexample).** The claim fails on the code: a dilation distance
of zero entering the dilation path through `polyline_to_binary_narr_grid` is
coerced to `max 0 1 = 1` metre, not to one NARR grid spacing, and the
resulting kernel (the single-cell 1×1 kernel) differs from the kernel built
from a buffer distance of one grid spacing (a 3×3 plus-shaped kernel). -/
theorem buffer_coercion_counterexample :
    ¬buffer_distance_to_narr_mask narrGridSpacingMetres (max 0 1) =
      buffer_distance_to_narr_mask narrGridSpacingMetres narrGridSpacingMetres := by
  rw [max_zero_one_rat, buffer_mask_one_metre, buffer_mask_one_spacing]
  intro h
  have := congrArg (fun x => match x with
    | Except.ok l => l.length
    | Except.error _ => 0) h
  simp at this

/-- **C5 (amended).** A dilation distance of zero on the polyline path passes
the non-negativity assertion and is coerced to `max 0 1 = 1` metre, giving
the single-cell kernel `[[true]]` (dilation is a no-op); a zero buffer
distance passed directly to `buffer_distance_to_narr_mask` is rejected by its
strict positivity assertion. -/
theorem buffer_coercion_amended :
    polyline_path_dilation_distance 0 = Except.ok (max 0 1) ∧
    buffer_distance_to_narr_mask narrGridSpacingMetres (max 0 1) =
      Except.ok [[true]] ∧
    buffer_distance_to_narr_mask narrGridSpacingMetres 0 =
      Except.error "assert_is_greater failed: input must exceed 0" := by
  refine ⟨?_, ?_, ?_⟩
  · unfold polyline_path_dilation_distance
    rw [if_neg (by norm_num)]
  · rw [max_zero_one_rat]
    exact buffer_mask_one_metre
  · unfold buffer_distance_to_narr_mask
    rw [if_pos (by norm_num)]

/-! ## The grid-cell intersector

`_polyline_to_grid_points` restricts candidate grid rows/columns to the
polyline's bounding box expanded by one grid spacing, then tests each
candidate cell's square footprint against the polyline.  The geometric test
(shapely `intersects`/`touches` on the cell polygon built by
`_grid_cell_to_polygon`) is an external-library primitive and is abstracted
as the parameter `hits`, taking the candidate cell's centre coordinates.
`numpy.min` of an empty array raises `ValueError`; that failure is the
`Except.error` case. -/

/-- `numpy.min` of a list of rationals (meaningful only on nonempty lists). -/
def listMinQ (l : List ℚ) : ℚ := l.foldl min (l.headD 0)

/-- `numpy.max` of a list of rationals (meaningful only on nonempty lists). -/
def listMaxQ (l : List ℚ) : ℚ := l.foldl max (l.headD 0)

/-- `numpy.min` of a list of naturals (meaningful only on nonempty lists). -/
def listMinNat (l : List ℕ) : ℕ := l.foldl min (l.headD 0)

/-- `_polyline_to_grid_points`: grid spacing from the first two coordinates,
bounding box expanded by one spacing, in-range candidate row/column indices,
offsets via `numpy.min` (which raises on an empty candidate set — the
`Except.error` branch), then the nested row-major intersection scan. -/
def _polyline_to_grid_points (hits : ℚ → ℚ → Bool)
    (px py gx gy : List ℚ) : Except String (List ℕ × List ℕ) :=
  let xs := gx.getD 1 0 - gx.getD 0 0
  let ys := gy.getD 1 0 - gy.getD 0 0
  let xMin := listMinQ px - xs
  let xMax := listMaxQ px + xs
  let yMin := listMinQ py - ys
  let yMax := listMaxQ py + ys
  let xIn := (List.range gx.length).filter fun (k : ℕ) =>
    decide (xMin ≤ gx.getD k 0 ∧ gx.getD k 0 ≤ xMax)
  let yIn := (List.range gy.length).filter fun (k : ℕ) =>
    decide (yMin ≤ gy.getD k 0 ∧ gy.getD k 0 ≤ yMax)
  if xIn.isEmpty || yIn.isEmpty then
    Except.error "zero-size array to reduction operation minimum"
  else
    let rowOffset := listMinNat yIn
    let colOffset := listMinNat xIn
    let xCons := xIn.map fun k => gx.getD k 0
    let yCons := yIn.map fun k => gy.getD k 0
    let cells := (List.range yCons.length).flatMap fun (i : ℕ) =>
      ((List.range xCons.length).filter fun (j : ℕ) =>
        hits (xCons.getD j 0) (yCons.getD i 0)).map fun (j : ℕ) =>
          (i + rowOffset, j + colOffset)
    Except.ok (cells.map Prod.fst, cells.map Prod.snd)

/-- **C3.** A polyline whose expanded bounding box lies entirely outside the
grid's x-coordinate range makes `_polyline_to_grid_points` raise (the
`numpy.min` of the empty candidate index set), for every geometric
intersection test — it does not return the empty pair of index arrays. -/
theorem polyline_outside_grid_raises (hits : ℚ → ℚ → Bool) :
    _polyline_to_grid_points hits [100, 101] [0, 0] [0, 1, 2] [0, 1, 2] =
      Except.error "zero-size array to reduction operation minimum" := by
  unfold _polyline_to_grid_points
  rw [if_pos]
  norm_num [listMinQ, listMaxQ, List.range_succ]

/-! ## Ternary dilation with conflict resolution

`dilate_binary_narr_image` delegates to `cv2.dilate` with a 0/1 kernel,
represented here by the list of kernel offsets relative to the anchor (the
kernel centre): an output cell is set iff some offset reaches an in-array
source cell that is set (cells outside the array never contribute).
`dilate_ternary_narr_image` dilates the cold-front and warm-front binary
images separately and resolves cells claimed by both by comparing minimum
squared grid-index distances to the original (pre-dilation) front points,
zeroing the losing mask at that cell; the cold front wins ties. -/

/-- `numpy.min` of a list of integers (meaningful only on nonempty lists;
`numpy.min` raises on an empty array). -/
def listMinZ (l : List ℤ) : ℤ := l.foldl min (l.headD 0)

/-- Squared grid-index distance between two cells. -/
def sqDist (p q : ℤ × ℤ) : ℤ := (p.1 - q.1) ^ 2 + (p.2 - q.2) ^ 2

/-- Minimum squared grid-index distance from `p` to the points `pts`
(the `numpy.min` of the two squared difference arrays in the source). -/
def minSqDist (p : ℤ × ℤ) (pts : List (ℤ × ℤ)) : ℤ :=
  listMinZ (pts.map (sqDist p))

/-- The row-major list of cells of `g` holding the label `v`
(`numpy.where(ternary_matrix == v)` zipped into pairs). -/
def frontPoints (R C : ℕ) (g : Grid) (v : ℤ) : List (ℤ × ℤ) :=
  (window R C).filter fun p => decide (g p.1 p.2 = v)

/-- The binary image of one front type (`numpy.full(..., 0)` followed by
`binary[ternary == v] = 1`). -/
def binaryFromTernary (R C : ℕ) (g : Grid) (v : ℤ) : Grid := fun i j =>
  if inWindow R C (i, j) ∧ g i j = v then ANY_FRONT_INTEGER_ID
  else NO_FRONT_INTEGER_ID

/-- `dilate_binary_narr_image` via `cv2.dilate` with kernel offsets
`offsets` (anchor at the kernel centre, border value 0). -/
def dilate_binary_narr_image (R C : ℕ) (offsets : List (ℤ × ℤ))
    (g : Grid) : Grid := fun i j =>
  if inWindow R C (i, j) ∧ ∃ o ∈ offsets, inWindow R C (i + o.1, j + o.2) ∧
      g (i + o.1) (j + o.2) = ANY_FRONT_INTEGER_ID
  then ANY_FRONT_INTEGER_ID else NO_FRONT_INTEGER_ID

/-- One iteration of the conflict-resolution loop of
`dilate_ternary_narr_image`: the state is the pair
(warm dilated mask, cold dilated mask); the contested cell `p` is removed
from the warm mask when the minimum squared distance to the original cold
points does not exceed the one to the original warm points, and from the
cold mask otherwise. -/
def resolveStep (coldPts warmPts : List (ℤ × ℤ)) (s : Grid × Grid)
    (p : ℤ × ℤ) : Grid × Grid :=
  if minSqDist p coldPts ≤ minSqDist p warmPts
  then (setCell s.1 p NO_FRONT_INTEGER_ID, s.2)
  else (s.1, setCell s.2 p NO_FRONT_INTEGER_ID)

/-- `dilate_ternary_narr_image`: dilate each front type's binary image,
resolve the cells claimed by both masks, then write the cold cells and then
the warm cells over the input ternary image. -/
def dilate_ternary_narr_image (R C : ℕ) (offsets : List (ℤ × ℤ))
    (g : Grid) : Grid :=
  let coldD := dilate_binary_narr_image R C offsets
    (binaryFromTernary R C g COLD_FRONT_INTEGER_ID)
  let warmD := dilate_binary_narr_image R C offsets
    (binaryFromTernary R C g WARM_FRONT_INTEGER_ID)
  let coldPts := frontPoints R C g COLD_FRONT_INTEGER_ID
  let warmPts := frontPoints R C g WARM_FRONT_INTEGER_ID
  let contested := (window R C).filter fun p =>
    decide (coldD p.1 p.2 = ANY_FRONT_INTEGER_ID ∧
      warmD p.1 p.2 = ANY_FRONT_INTEGER_ID)
  let s := contested.foldl (resolveStep coldPts warmPts) (warmD, coldD)
  fun i j =>
    if s.1 i j = ANY_FRONT_INTEGER_ID then WARM_FRONT_INTEGER_ID
    else if s.2 i j = ANY_FRONT_INTEGER_ID then COLD_FRONT_INTEGER_ID
    else g i j

lemma foldl_min_le {l : List ℤ} {a : ℤ} :
    ∀ x, x ∈ l ∨ x = a → l.foldl min a ≤ x := by
  induction l generalizing a with
  | nil =>
    rintro x (hx | rfl)
    · exact absurd hx (List.not_mem_nil x)
    · exact le_refl x
  | cons y t ih =>
    rintro x (hx | rfl)
    · rw [List.foldl_cons]
      rcases List.mem_cons.mp hx with rfl | hx'
      · exact le_trans (ih _ (Or.inr rfl)) (min_le_right a x)
      · exact ih x (Or.inl hx')
    · rw [List.foldl_cons]
      exact le_trans (ih _ (Or.inr rfl)) (min_le_left x y)

lemma foldl_min_mem {l : List ℤ} {a : ℤ} :
    l.foldl min a ∈ l ∨ l.foldl min a = a := by
  induction l generalizing a with
  | nil => exact Or.inr rfl
  | cons y t ih =>
    rw [List.foldl_cons]
    rcases @ih (min a y) with h | h
    · exact Or.inl (List.mem_cons_of_mem _ h)
    · rcases le_total a y with hay | hya
      · exact Or.inr (h.trans (min_eq_left hay))
      · exact Or.inl (List.mem_cons.mpr (Or.inl (h.trans (min_eq_right hya))))

lemma minSqDist_le (p q : ℤ × ℤ) (pts : List (ℤ × ℤ)) (hq : q ∈ pts) :
    minSqDist p pts ≤ sqDist p q := by
  unfold minSqDist listMinZ
  exact foldl_min_le (sqDist p q) (Or.inl (List.mem_map_of_mem _ hq))

lemma minSqDist_nonneg (p : ℤ × ℤ) (pts : List (ℤ × ℤ)) (hne : pts ≠ []) :
    0 ≤ minSqDist p pts := by
  unfold minSqDist listMinZ
  have hd : ∀ q : ℤ × ℤ, 0 ≤ sqDist p q := fun q => by unfold sqDist; positivity
  rcases @foldl_min_mem (pts.map (sqDist p)) ((pts.map (sqDist p)).headD 0) with h | h
  · obtain ⟨q, -, hq⟩ := List.mem_map.mp h
    exact hq ▸ hd q
  · rw [h]
    cases pts with
    | nil => exact absurd rfl hne
    | cons q t => simpa using hd q

lemma one_le_sq_of_ne {a : ℤ} (h : a ≠ 0) : 1 ≤ a ^ 2 := by
  have h2 : 1 ≤ |a| := Int.one_le_abs h
  calc (1 : ℤ) = 1 * 1 := by ring
    _ ≤ |a| * |a| := mul_le_mul h2 h2 (by norm_num) (abs_nonneg a)
    _ = a ^ 2 := by rw [abs_mul_abs_self]; ring

lemma minSqDist_pos_of_not_mem (p : ℤ × ℤ) (pts : List (ℤ × ℤ))
    (hne : pts ≠ []) (hp : p ∉ pts) : 1 ≤ minSqDist p pts := by
  unfold minSqDist listMinZ
  have hd : ∀ q ∈ pts, 1 ≤ sqDist p q := by
    intro q hq
    have hpq : p ≠ q := fun h => hp (h ▸ hq)
    have h1 : p.1 ≠ q.1 ∨ p.2 ≠ q.2 := by
      by_contra hcon
      push_neg at hcon
      exact hpq (Prod.ext hcon.1 hcon.2)
    unfold sqDist
    rcases h1 with h1 | h1
    · have := one_le_sq_of_ne (sub_ne_zero.mpr h1)
      linarith [sq_nonneg (p.2 - q.2)]
    · have := one_le_sq_of_ne (sub_ne_zero.mpr h1)
      linarith [sq_nonneg (p.1 - q.1)]
  rcases @foldl_min_mem (pts.map (sqDist p)) ((pts.map (sqDist p)).headD 0) with h | h
  · obtain ⟨q, hqmem, hq⟩ := List.mem_map.mp h
    exact hq ▸ hd q hqmem
  · rw [h]
    cases pts with
    | nil => exact absurd rfl hne
    | cons q t => simpa using hd q (List.mem_cons_self q t)

lemma window_nodup (R C : ℕ) : (window R C).Nodup := by
  unfold window
  rw [List.nodup_flatMap]
  constructor
  · intro i _
    refine (List.nodup_range C).map ?_
    intro j1 j2 h
    simpa using h
  · refine (List.nodup_range R).imp ?_
    intro a b hne x hxa hxb
    obtain ⟨j1, -, h1⟩ := List.mem_map.mp hxa
    obtain ⟨j2, -, h2⟩ := List.mem_map.mp hxb
    rw [← h1] at h2
    have : (b : ℤ) = (a : ℤ) := congrArg Prod.fst h2
    exact hne (by exact_mod_cast this.symm)

lemma resolveStep_other (coldPts warmPts : List (ℤ × ℤ)) (s : Grid × Grid)
    (q p : ℤ × ℤ) (hpq : p ≠ q) :
    (resolveStep coldPts warmPts s q).1 p.1 p.2 = s.1 p.1 p.2 ∧
    (resolveStep coldPts warmPts s q).2 p.1 p.2 = s.2 p.1 p.2 := by
  have hne : ¬(p.1 = q.1 ∧ p.2 = q.2) := fun h => hpq (Prod.ext h.1 h.2)
  unfold resolveStep
  split
  · exact ⟨by simp [setCell, hne], rfl⟩
  · exact ⟨rfl, by simp [setCell, hne]⟩

lemma resolve_foldl_not_mem (coldPts warmPts : List (ℤ × ℤ)) (p : ℤ × ℤ) :
    ∀ (l : List (ℤ × ℤ)) (s : Grid × Grid), p ∉ l →
      (l.foldl (resolveStep coldPts warmPts) s).1 p.1 p.2 = s.1 p.1 p.2 ∧
      (l.foldl (resolveStep coldPts warmPts) s).2 p.1 p.2 = s.2 p.1 p.2 := by
  intro l
  induction l with
  | nil => exact fun s _ => ⟨rfl, rfl⟩
  | cons q t ih =>
    intro s hp
    have hq : p ≠ q := fun h => hp (h ▸ List.mem_cons_self q t)
    have hpt : p ∉ t := fun h => hp (List.mem_cons_of_mem q h)
    rw [List.foldl_cons]
    obtain ⟨h1, h2⟩ := ih (resolveStep coldPts warmPts s q) hpt
    obtain ⟨h1', h2'⟩ := resolveStep_other coldPts warmPts s q p hq
    exact ⟨h1.trans h1', h2.trans h2'⟩

lemma resolve_foldl_mem (coldPts warmPts : List (ℤ × ℤ)) (p : ℤ × ℤ) :
    ∀ (l : List (ℤ × ℤ)) (s : Grid × Grid), l.Nodup → p ∈ l →
      (minSqDist p coldPts ≤ minSqDist p warmPts →
        (l.foldl (resolveStep coldPts warmPts) s).1 p.1 p.2
            = NO_FRONT_INTEGER_ID ∧
        (l.foldl (resolveStep coldPts warmPts) s).2 p.1 p.2 = s.2 p.1 p.2) ∧
      (¬minSqDist p coldPts ≤ minSqDist p warmPts →
        (l.foldl (resolveStep coldPts warmPts) s).1 p.1 p.2 = s.1 p.1 p.2 ∧
        (l.foldl (resolveStep coldPts warmPts) s).2 p.1 p.2
            = NO_FRONT_INTEGER_ID) := by
  intro l
  induction l with
  | nil => exact fun s _ hmem => absurd hmem (List.not_mem_nil p)
  | cons q t ih =>
    intro s hnd hmem
    rw [List.foldl_cons]
    rcases List.mem_cons.mp hmem with rfl | hpt
    · have hpnott : p ∉ t := (List.nodup_cons.mp hnd).1
      obtain ⟨h1, h2⟩ := resolve_foldl_not_mem coldPts warmPts p t
        (resolveStep coldPts warmPts s p) hpnott
      constructor
      · intro hdec
        refine ⟨h1.trans ?_, h2.trans ?_⟩
        · unfold resolveStep
          rw [if_pos hdec]
          simp [setCell]
        · unfold resolveStep
          rw [if_pos hdec]
      · intro hdec
        refine ⟨h1.trans ?_, h2.trans ?_⟩
        · unfold resolveStep
          rw [if_neg hdec]
        · unfold resolveStep
          rw [if_neg hdec]
          simp [setCell]
    · have hq : p ≠ q := by
        rintro rfl
        exact (List.nodup_cons.mp hnd).1 hpt
      obtain ⟨h1', h2'⟩ := resolveStep_other coldPts warmPts s q p hq
      obtain ⟨ha, hb⟩ := ih (resolveStep coldPts warmPts s q)
        (List.nodup_cons.mp hnd).2 hpt
      constructor
      · intro hdec
        exact ⟨(ha hdec).1, (ha hdec).2.trans h2'⟩
      · intro hdec
        exact ⟨(hb hdec).1.trans h1', (hb hdec).2⟩

/-- **C2.** Conflict tie-break determinism: on every valid ternary grid with
at least one warm-front cell and one cold-front cell, a cell covered by both
per-type dilated masks whose minimum squared grid-index distance to the
original cold-front points equals the one to the original warm-front points
is assigned the cold-front label by `dilate_ternary_narr_image`. -/
theorem dilate_ternary_tie_break (R C : ℕ) (offsets : List (ℤ × ℤ))
    (g : Grid)
    (hvalid : ∀ p ∈ window R C, 0 ≤ g p.1 p.2 ∧ g p.1 p.2 ≤ 2)
    (hwarmEx : ∃ p ∈ window R C, g p.1 p.2 = WARM_FRONT_INTEGER_ID)
    (hcoldEx : ∃ p ∈ window R C, g p.1 p.2 = COLD_FRONT_INTEGER_ID)
    (a b : ℤ)
    (hcold : dilate_binary_narr_image R C offsets
      (binaryFromTernary R C g COLD_FRONT_INTEGER_ID) a b
        = ANY_FRONT_INTEGER_ID)
    (hwarm : dilate_binary_narr_image R C offsets
      (binaryFromTernary R C g WARM_FRONT_INTEGER_ID) a b
        = ANY_FRONT_INTEGER_ID)
    (htie : minSqDist (a, b) (frontPoints R C g COLD_FRONT_INTEGER_ID)
      = minSqDist (a, b) (frontPoints R C g WARM_FRONT_INTEGER_ID)) :
    dilate_ternary_narr_image R C offsets g a b = COLD_FRONT_INTEGER_ID := by
  have hin : inWindow R C (a, b) := by
    by_contra hno
    unfold dilate_binary_narr_image at hcold
    rw [if_neg (fun h => hno h.1)] at hcold
    exact absurd hcold (by norm_num [NO_FRONT_INTEGER_ID, ANY_FRONT_INTEGER_ID])
  unfold dilate_ternary_narr_image
  have hmem : (a, b) ∈ (window R C).filter fun p =>
      decide (dilate_binary_narr_image R C offsets
          (binaryFromTernary R C g COLD_FRONT_INTEGER_ID) p.1 p.2
            = ANY_FRONT_INTEGER_ID ∧
        dilate_binary_narr_image R C offsets
          (binaryFromTernary R C g WARM_FRONT_INTEGER_ID) p.1 p.2
            = ANY_FRONT_INTEGER_ID) := by
    rw [List.mem_filter, mem_window]
    exact ⟨hin, by simp only [decide_eq_true_eq]; exact ⟨hcold, hwarm⟩⟩
  have hnd := (window_nodup R C).filter (p := fun p =>
    decide (dilate_binary_narr_image R C offsets
        (binaryFromTernary R C g COLD_FRONT_INTEGER_ID) p.1 p.2
          = ANY_FRONT_INTEGER_ID ∧
      dilate_binary_narr_image R C offsets
        (binaryFromTernary R C g WARM_FRONT_INTEGER_ID) p.1 p.2
          = ANY_FRONT_INTEGER_ID))
  have hres := (resolve_foldl_mem
    (frontPoints R C g COLD_FRONT_INTEGER_ID)
    (frontPoints R C g WARM_FRONT_INTEGER_ID) (a, b) _
    (dilate_binary_narr_image R C offsets
        (binaryFromTernary R C g WARM_FRONT_INTEGER_ID),
      dilate_binary_narr_image R C offsets
        (binaryFromTernary R C g COLD_FRONT_INTEGER_ID))
    hnd hmem).1 (le_of_eq htie)
  obtain ⟨h1, h2⟩ := hres
  dsimp only at h1 h2
  rw [h1, h2, hcold]
  norm_num [NO_FRONT_INTEGER_ID, ANY_FRONT_INTEGER_ID, COLD_FRONT_INTEGER_ID]

/-- **C10.** Dilation is label-preserving on original front cells: whenever
the dilation kernel contains its centre offset (true of every kernel built by
`buffer_distance_to_narr_mask`), every cell labeled warm-front in a valid
input of `dilate_ternary_narr_image` is still warm-front in the output, and
every cell labeled cold-front is still cold-front. -/
theorem dilate_ternary_preserves_originals (R C : ℕ) (offsets : List (ℤ × ℤ))
    (g : Grid) (hcenter : ((0 : ℤ), (0 : ℤ)) ∈ offsets)
    (hvalid : ∀ p ∈ window R C, 0 ≤ g p.1 p.2 ∧ g p.1 p.2 ≤ 2)
    (a b : ℤ) (hin : inWindow R C (a, b)) :
    (g a b = WARM_FRONT_INTEGER_ID →
      dilate_ternary_narr_image R C offsets g a b = WARM_FRONT_INTEGER_ID) ∧
    (g a b = COLD_FRONT_INTEGER_ID →
      dilate_ternary_narr_image R C offsets g a b = COLD_FRONT_INTEGER_ID) := by
  have hcenterD : ∀ v : ℤ, g a b = v →
      dilate_binary_narr_image R C offsets (binaryFromTernary R C g v) a b
        = ANY_FRONT_INTEGER_ID := by
    intro v hv
    unfold dilate_binary_narr_image
    rw [if_pos]
    refine ⟨hin, (0, 0), hcenter, ?_, ?_⟩
    · simpa using hin
    · simp only [add_zero]
      unfold binaryFromTernary
      rw [if_pos ⟨hin, hv⟩]
  constructor
  · -- original warm cell
    intro hv
    have hwD := hcenterD WARM_FRONT_INTEGER_ID hv
    have hmemWarm : (a, b) ∈ frontPoints R C g WARM_FRONT_INTEGER_ID := by
      unfold frontPoints
      rw [List.mem_filter, mem_window]
      exact ⟨hin, by simpa using hv⟩
    have hWne : frontPoints R C g WARM_FRONT_INTEGER_ID ≠ [] := by
      intro h
      rw [h] at hmemWarm
      exact List.not_mem_nil _ hmemWarm
    unfold dilate_ternary_narr_image
    by_cases hcD : dilate_binary_narr_image R C offsets
        (binaryFromTernary R C g COLD_FRONT_INTEGER_ID) a b
          = ANY_FRONT_INTEGER_ID
    · -- contested: cold loses since its min distance is at least 1 > 0
      have hCne : frontPoints R C g COLD_FRONT_INTEGER_ID ≠ [] := by
        unfold dilate_binary_narr_image at hcD
        by_cases hcond : inWindow R C (a, b) ∧ ∃ o ∈ offsets,
            inWindow R C (a + o.1, b + o.2) ∧
              binaryFromTernary R C g COLD_FRONT_INTEGER_ID (a + o.1) (b + o.2)
                = ANY_FRONT_INTEGER_ID
        · obtain ⟨-, o, -, hoin, hval⟩ := hcond
          unfold binaryFromTernary at hval
          intro hnil
          by_cases hsrc : inWindow R C (a + o.1, b + o.2) ∧
              g (a + o.1) (b + o.2) = COLD_FRONT_INTEGER_ID
          · have : (a + o.1, b + o.2) ∈
                frontPoints R C g COLD_FRONT_INTEGER_ID := by
              unfold frontPoints
              rw [List.mem_filter, mem_window]
              exact ⟨hsrc.1, by simpa using hsrc.2⟩
            rw [hnil] at this
            exact List.not_mem_nil _ this
          · rw [if_neg hsrc] at hval
            exact absurd hval
              (by norm_num [NO_FRONT_INTEGER_ID, ANY_FRONT_INTEGER_ID])
        · rw [if_neg hcond] at hcD
          exact absurd hcD
            (by norm_num [NO_FRONT_INTEGER_ID, ANY_FRONT_INTEGER_ID])
      have hmemBoth : (a, b) ∈ (window R C).filter fun p =>
          decide (dilate_binary_narr_image R C offsets
              (binaryFromTernary R C g COLD_FRONT_INTEGER_ID) p.1 p.2
                = ANY_FRONT_INTEGER_ID ∧
            dilate_binary_narr_image R C offsets
              (binaryFromTernary R C g WARM_FRONT_INTEGER_ID) p.1 p.2
                = ANY_FRONT_INTEGER_ID) := by
        rw [List.mem_filter, mem_window]
        exact ⟨hin, by simp only [decide_eq_true_eq]; exact ⟨hcD, hwD⟩⟩
      have hnd := (window_nodup R C).filter (p := fun p =>
        decide (dilate_binary_narr_image R C offsets
            (binaryFromTernary R C g COLD_FRONT_INTEGER_ID) p.1 p.2
              = ANY_FRONT_INTEGER_ID ∧
          dilate_binary_narr_image R C offsets
            (binaryFromTernary R C g WARM_FRONT_INTEGER_ID) p.1 p.2
              = ANY_FRONT_INTEGER_ID))
      have hWzero : minSqDist (a, b)
          (frontPoints R C g WARM_FRONT_INTEGER_ID) ≤ 0 := by
        have := minSqDist_le (a, b) (a, b)
          (frontPoints R C g WARM_FRONT_INTEGER_ID) hmemWarm
        unfold sqDist at this
        simpa using this
      have hCpos : 1 ≤ minSqDist (a, b)
          (frontPoints R C g COLD_FRONT_INTEGER_ID) := by
        refine minSqDist_pos_of_not_mem (a, b) _ hCne ?_
        unfold frontPoints
        rw [List.mem_filter]
        rintro ⟨-, hdec⟩
        rw [decide_eq_true_eq] at hdec
        rw [hv] at hdec
        exact absurd hdec
          (by norm_num [WARM_FRONT_INTEGER_ID, COLD_FRONT_INTEGER_ID])
      have hdec : ¬minSqDist (a, b)
            (frontPoints R C g COLD_FRONT_INTEGER_ID) ≤
          minSqDist (a, b) (frontPoints R C g WARM_FRONT_INTEGER_ID) := by
        intro h
        linarith
      have hres := (resolve_foldl_mem
        (frontPoints R C g COLD_FRONT_INTEGER_ID)
        (frontPoints R C g WARM_FRONT_INTEGER_ID) (a, b) _
        (dilate_binary_narr_image R C offsets
            (binaryFromTernary R C g WARM_FRONT_INTEGER_ID),
          dilate_binary_narr_image R C offsets
            (binaryFromTernary R C g COLD_FRONT_INTEGER_ID))
        hnd hmemBoth).2 hdec
      obtain ⟨h1, h2⟩ := hres
      dsimp only at h1 h2
      rw [h1, hwD]
      norm_num [WARM_FRONT_INTEGER_ID, ANY_FRONT_INTEGER_ID]
    · -- not contested: the warm mask is untouched at (a, b)
      have hnotmem : (a, b) ∉ (window R C).filter fun p =>
          decide (dilate_binary_narr_image R C offsets
              (binaryFromTernary R C g COLD_FRONT_INTEGER_ID) p.1 p.2
                = ANY_FRONT_INTEGER_ID ∧
            dilate_binary_narr_image R C offsets
              (binaryFromTernary R C g WARM_FRONT_INTEGER_ID) p.1 p.2
                = ANY_FRONT_INTEGER_ID) := by
        rw [List.mem_filter]
        rintro ⟨-, hdec⟩
        rw [decide_eq_true_eq] at hdec
        exact hcD hdec.1
      have hres := resolve_foldl_not_mem
        (frontPoints R C g COLD_FRONT_INTEGER_ID)
        (frontPoints R C g WARM_FRONT_INTEGER_ID) (a, b) _
        (dilate_binary_narr_image R C offsets
            (binaryFromTernary R C g WARM_FRONT_INTEGER_ID),
          dilate_binary_narr_image R C offsets
            (binaryFromTernary R C g COLD_FRONT_INTEGER_ID))
        hnotmem
      obtain ⟨h1, h2⟩ := hres
      dsimp only at h1 h2
      rw [h1, hwD]
      norm_num [WARM_FRONT_INTEGER_ID, ANY_FRONT_INTEGER_ID]
  · -- original cold cell
    intro hv
    have hcD := hcenterD COLD_FRONT_INTEGER_ID hv
    have hmemCold : (a, b) ∈ frontPoints R C g COLD_FRONT_INTEGER_ID := by
      unfold frontPoints
      rw [List.mem_filter, mem_window]
      exact ⟨hin, by simpa using hv⟩
    have hCzero : minSqDist (a, b)
        (frontPoints R C g COLD_FRONT_INTEGER_ID) ≤ 0 := by
      have := minSqDist_le (a, b) (a, b)
        (frontPoints R C g COLD_FRONT_INTEGER_ID) hmemCold
      unfold sqDist at this
      simpa using this
    unfold dilate_ternary_narr_image
    by_cases hwD : dilate_binary_narr_image R C offsets
        (binaryFromTernary R C g WARM_FRONT_INTEGER_ID) a b
          = ANY_FRONT_INTEGER_ID
    · -- contested: the tie-break removes the warm mask at (a, b)
      have hWne : frontPoints R C g WARM_FRONT_INTEGER_ID ≠ [] := by
        unfold dilate_binary_narr_image at hwD
        by_cases hcond : inWindow R C (a, b) ∧ ∃ o ∈ offsets,
            inWindow R C (a + o.1, b + o.2) ∧
              binaryFromTernary R C g WARM_FRONT_INTEGER_ID (a + o.1) (b + o.2)
                = ANY_FRONT_INTEGER_ID
        · obtain ⟨-, o, -, hoin, hval⟩ := hcond
          unfold binaryFromTernary at hval
          intro hnil
          by_cases hsrc : inWindow R C (a + o.1, b + o.2) ∧
              g (a + o.1) (b + o.2) = WARM_FRONT_INTEGER_ID
          · have : (a + o.1, b + o.2) ∈
                frontPoints R C g WARM_FRONT_INTEGER_ID := by
              unfold frontPoints
              rw [List.mem_filter, mem_window]
              exact ⟨hsrc.1, by simpa using hsrc.2⟩
            rw [hnil] at this
            exact List.not_mem_nil _ this
          · rw [if_neg hsrc] at hval
            exact absurd hval
              (by norm_num [NO_FRONT_INTEGER_ID, ANY_FRONT_INTEGER_ID])
        · rw [if_neg hcond] at hwD
          exact absurd hwD
            (by norm_num [NO_FRONT_INTEGER_ID, ANY_FRONT_INTEGER_ID])
      have hmemBoth : (a, b) ∈ (window R C).filter fun p =>
          decide (dilate_binary_narr_image R C offsets
              (binaryFromTernary R C g COLD_FRONT_INTEGER_ID) p.1 p.2
                = ANY_FRONT_INTEGER_ID ∧
            dilate_binary_narr_image R C offsets
              (binaryFromTernary R C g WARM_FRONT_INTEGER_ID) p.1 p.2
                = ANY_FRONT_INTEGER_ID) := by
        rw [List.mem_filter, mem_window]
        exact ⟨hin, by simp only [decide_eq_true_eq]; exact ⟨hcD, hwD⟩⟩
      have hnd := (window_nodup R C).filter (p := fun p =>
        decide (dilate_binary_narr_image R C offsets
            (binaryFromTernary R C g COLD_FRONT_INTEGER_ID) p.1 p.2
              = ANY_FRONT_INTEGER_ID ∧
          dilate_binary_narr_image R C offsets
            (binaryFromTernary R C g WARM_FRONT_INTEGER_ID) p.1 p.2
              = ANY_FRONT_INTEGER_ID))
      have hWpos : 1 ≤ minSqDist (a, b)
          (frontPoints R C g WARM_FRONT_INTEGER_ID) := by
        refine minSqDist_pos_of_not_mem (a, b) _ hWne ?_
        unfold frontPoints
        rw [List.mem_filter]
        rintro ⟨-, hdec⟩
        rw [decide_eq_true_eq] at hdec
        rw [hv] at hdec
        exact absurd hdec
          (by norm_num [WARM_FRONT_INTEGER_ID, COLD_FRONT_INTEGER_ID])
      have hdec : minSqDist (a, b)
            (frontPoints R C g COLD_FRONT_INTEGER_ID) ≤
          minSqDist (a, b) (frontPoints R C g WARM_FRONT_INTEGER_ID) := by
        linarith
      have hres := (resolve_foldl_mem
        (frontPoints R C g COLD_FRONT_INTEGER_ID)
        (frontPoints R C g WARM_FRONT_INTEGER_ID) (a, b) _
        (dilate_binary_narr_image R C offsets
            (binaryFromTernary R C g WARM_FRONT_INTEGER_ID),
          dilate_binary_narr_image R C offsets
            (binaryFromTernary R C g COLD_FRONT_INTEGER_ID))
        hnd hmemBoth).1 hdec
      obtain ⟨h1, h2⟩ := hres
      dsimp only at h1 h2
      rw [h1, h2, hcD]
      norm_num [NO_FRONT_INTEGER_ID, ANY_FRONT_INTEGER_ID,
        COLD_FRONT_INTEGER_ID]
    · -- not contested: the masks at (a, b) are untouched; the warm mask is 0
      have hnotmem : (a, b) ∉ (window R C).filter fun p =>
          decide (dilate_binary_narr_image R C offsets
              (binaryFromTernary R C g COLD_FRONT_INTEGER_ID) p.1 p.2
                = ANY_FRONT_INTEGER_ID ∧
            dilate_binary_narr_image R C offsets
              (binaryFromTernary R C g WARM_FRONT_INTEGER_ID) p.1 p.2
                = ANY_FRONT_INTEGER_ID) := by
        rw [List.mem_filter]
        rintro ⟨-, hdec⟩
        rw [decide_eq_true_eq] at hdec
        exact hwD hdec.2
      have hres := resolve_foldl_not_mem
        (frontPoints R C g COLD_FRONT_INTEGER_ID)
        (frontPoints R C g WARM_FRONT_INTEGER_ID) (a, b) _
        (dilate_binary_narr_image R C offsets
            (binaryFromTernary R C g WARM_FRONT_INTEGER_ID),
          dilate_binary_narr_image R C offsets
            (binaryFromTernary R C g COLD_FRONT_INTEGER_ID))
        hnotmem
      obtain ⟨h1, h2⟩ := hres
      dsimp only at h1 h2
      rw [h1, h2, hcD, if_neg hwD, if_pos rfl]

/-- Concrete instantiation of the tie-break theorem: on the 1×3 grid
`[2, 0, 1]` with the 3×3 kernel, the middle cell is contested and equidistant
from the cold cell and the warm cell, and comes out cold. -/
theorem dilate_ternary_tie_break_witness :
    ((∀ p ∈ window 1 3,
        0 ≤ (fun i j : ℤ => if i = 0 ∧ j = 0 then 2
          else if i = 0 ∧ j = 2 then 1 else 0) p.1 p.2 ∧
        (fun i j : ℤ => if i = 0 ∧ j = 0 then 2
          else if i = 0 ∧ j = 2 then 1 else 0) p.1 p.2 ≤ 2) ∧
      (∃ p ∈ window 1 3, (fun i j : ℤ => if i = 0 ∧ j = 0 then 2
          else if i = 0 ∧ j = 2 then 1 else 0) p.1 p.2
            = WARM_FRONT_INTEGER_ID) ∧
      (∃ p ∈ window 1 3, (fun i j : ℤ => if i = 0 ∧ j = 0 then 2
          else if i = 0 ∧ j = 2 then 1 else 0) p.1 p.2
            = COLD_FRONT_INTEGER_ID) ∧
      dilate_binary_narr_image 1 3 nineOffsets
        (binaryFromTernary 1 3 (fun i j : ℤ => if i = 0 ∧ j = 0 then 2
          else if i = 0 ∧ j = 2 then 1 else 0) COLD_FRONT_INTEGER_ID) 0 1
          = ANY_FRONT_INTEGER_ID ∧
      dilate_binary_narr_image 1 3 nineOffsets
        (binaryFromTernary 1 3 (fun i j : ℤ => if i = 0 ∧ j = 0 then 2
          else if i = 0 ∧ j = 2 then 1 else 0) WARM_FRONT_INTEGER_ID) 0 1
          = ANY_FRONT_INTEGER_ID ∧
      minSqDist (0, 1) (frontPoints 1 3
        (fun i j : ℤ => if i = 0 ∧ j = 0 then 2
          else if i = 0 ∧ j = 2 then 1 else 0) COLD_FRONT_INTEGER_ID)
        = minSqDist (0, 1) (frontPoints 1 3
          (fun i j : ℤ => if i = 0 ∧ j = 0 then 2
            else if i = 0 ∧ j = 2 then 1 else 0) WARM_FRONT_INTEGER_ID)) ∧
    dilate_ternary_narr_image 1 3 nineOffsets
      (fun i j : ℤ => if i = 0 ∧ j = 0 then 2
        else if i = 0 ∧ j = 2 then 1 else 0) 0 1 = COLD_FRONT_INTEGER_ID :=
  ⟨⟨by decide, by decide, by decide, by decide, by decide, by decide⟩,
    dilate_ternary_tie_break 1 3 nineOffsets
      (fun i j : ℤ => if i = 0 ∧ j = 0 then 2
        else if i = 0 ∧ j = 2 then 1 else 0)
      (by decide) (by decide) (by decide) 0 1
      (by decide) (by decide) (by decide)⟩

/-- Concrete instantiation of the label-preservation theorem on the 1×3 grid
`[2, 0, 1]` with the 3×3 kernel at the warm cell (0, 2) and at the cold cell
(0, 0). -/
theorem dilate_ternary_preserves_originals_witness :
    ((((0 : ℤ), (0 : ℤ)) ∈ nineOffsets ∧
      (∀ p ∈ window 1 3,
        0 ≤ (fun i j : ℤ => if i = 0 ∧ j = 0 then 2
          else if i = 0 ∧ j = 2 then 1 else 0) p.1 p.2 ∧
        (fun i j : ℤ => if i = 0 ∧ j = 0 then 2
          else if i = 0 ∧ j = 2 then 1 else 0) p.1 p.2 ≤ 2) ∧
      inWindow 1 3 ((0 : ℤ), (2 : ℤ)) ∧ inWindow 1 3 ((0 : ℤ), (0 : ℤ))) ∧
    (dilate_ternary_narr_image 1 3 nineOffsets
        (fun i j : ℤ => if i = 0 ∧ j = 0 then 2
          else if i = 0 ∧ j = 2 then 1 else 0) 0 2 = WARM_FRONT_INTEGER_ID) ∧
    (dilate_ternary_narr_image 1 3 nineOffsets
        (fun i j : ℤ => if i = 0 ∧ j = 0 then 2
          else if i = 0 ∧ j = 2 then 1 else 0) 0 0
          = COLD_FRONT_INTEGER_ID)) :=
  ⟨⟨by decide, by decide, by decide, by decide⟩,
    (dilate_ternary_preserves_originals 1 3 nineOffsets
      (fun i j : ℤ => if i = 0 ∧ j = 0 then 2
        else if i = 0 ∧ j = 2 then 1 else 0)
      (by decide) (by decide) 0 2 (by decide)).1 (by decide),
    (dilate_ternary_preserves_originals 1 3 nineOffsets
      (fun i j : ℤ => if i = 0 ∧ j = 0 then 2
        else if i = 0 ∧ j = 2 then 1 else 0)
      (by decide) (by decide) 0 0 (by decide)).2 (by decide)⟩

/-! ## Converting a table of frontal polylines to per-time label grids

`many_polylines_to_narr_grid` loops over the unique valid times of the front
table (`numpy.unique`, which sorts), and for each time rasterizes every
non-closed front at that time into a shared label grid, then converts the
grid to warm/cold point lists.  The geometric rasterization
`polyline_to_binary_narr_grid` (lat/long projection, grid-cell intersection
and dilation through external NARR utilities) is abstracted as the
`rasterize` parameter giving each polyline's binary NARR image; the looping,
skip and labeling logic is embedded from the source. -/

/-- One row of the front table (see `fronts_io.write_polylines_to_file`):
valid time, front type string, vertex latitudes and longitudes (degrees). -/
structure FrontRecord where
  unix_time_sec : ℤ
  front_type : String
  latitudes_deg : List ℚ
  longitudes_deg : List ℚ
  deriving Repr, DecidableEq

instance : Inhabited FrontRecord := ⟨⟨0, "", [], []⟩⟩

/-- `TOLERANCE_DEG = 1e-3`. -/
def TOLERANCE_DEG : ℚ := 1 / 1000

/-- `_is_polyline_closed`: first and last vertex coincide within
`TOLERANCE_DEG` in both latitude and longitude (strict comparison). -/
def _is_polyline_closed (lats lons : List ℚ) : Bool :=
  decide (|lats.headD 0 - (lats.getLast?).getD 0| < TOLERANCE_DEG ∧
    |lons.headD 0 - (lons.getLast?).getD 0| < TOLERANCE_DEG)

/-- Insert into a sorted list (ascending). -/
def insertSorted (x : ℤ) : List ℤ → List ℤ
  | [] => [x]
  | y :: t => if x ≤ y then x :: y :: t else y :: insertSorted x t

/-- Ascending insertion sort. -/
def sortZ (l : List ℤ) : List ℤ := l.foldr insertSorted []

/-- `numpy.unique`: the sorted list of distinct values. -/
def uniqueSorted (l : List ℤ) : List ℤ := (sortZ l).dedup

/-- `array[numpy.where(binary)] = v`: overlay the label `v` on the cells of
the binary image. -/
def overlayBinary (R C : ℕ) (binary : ℤ → ℤ → Bool) (g : Grid) (v : ℤ) :
    Grid := fun i j =>
  if inWindow R C (i, j) ∧ binary i j = true then v else g i j

/-- The body of the inner loop of `many_polylines_to_narr_grid` for the front
record at position `j` of the table, while processing the valid time of
index `i`: skip the record if its polyline is closed; otherwise rasterize it
and write the warm label if record `j`'s type is warm, else the cold label if
record `i`'s type is cold.  (The cold-front branch reads the front type at
index `i` — the valid-time loop index — instead of `j`, exactly as in the
source, line 832 of `front_utils.py`.) -/
def processFront (rasterize : List ℚ → List ℚ → ℤ → ℤ → Bool) (R C : ℕ)
    (table : List FrontRecord) (i : ℕ) (g : Grid) (j : ℕ) : Grid :=
  let recj := table.getD j default
  if _is_polyline_closed recj.latitudes_deg recj.longitudes_deg then g
  else
    let binary := rasterize recj.latitudes_deg recj.longitudes_deg
    if recj.front_type = WARM_FRONT_STRING_ID then
      overlayBinary R C binary g WARM_FRONT_INTEGER_ID
    else if (table.getD i default).front_type = COLD_FRONT_STRING_ID then
      overlayBinary R C binary g COLD_FRONT_INTEGER_ID
    else g

/-- The sorted unique valid times of the front table. -/
def validTimes (table : List FrontRecord) : List ℤ :=
  uniqueSorted (table.map fun r => r.unix_time_sec)

/-- `numpy.where(front_table[TIME_COLUMN].values == t)`: the positions of the
records with valid time `t`, in ascending order. -/
def frontIndicesAt (table : List FrontRecord) (t : ℤ) : List ℕ :=
  (List.range table.length).filter fun j =>
    decide ((table.getD j default).unix_time_sec = t)

/-- The label grid built for the valid time of index `i`. -/
def gridForTimeIndex (rasterize : List ℚ → List ℚ → ℤ → ℤ → Bool) (R C : ℕ)
    (table : List FrontRecord) (i : ℕ) : Grid :=
  (frontIndicesAt table ((validTimes table).getD i 0)).foldl
    (processFront rasterize R C table i) zeroGrid

/-- `many_polylines_to_narr_grid`: one row per unique valid time, holding the
time and the warm/cold grid-point lists of that time's label grid. -/
def many_polylines_to_narr_grid (rasterize : List ℚ → List ℚ → ℤ → ℤ → Bool)
    (R C : ℕ) (table : List FrontRecord) : List (ℤ × FrontalGridDict) :=
  (List.range (validTimes table).length).map fun i =>
    ((validTimes table).getD i 0,
      frontal_grid_to_points R C (gridForTimeIndex rasterize R C table i))

lemma foldl_skip_of_fixed {α β : Type _} (f : α → β → α) (j : β)
    [DecidableEq β] (hfix : ∀ acc, f acc j = acc) :
    ∀ (l : List β) (acc : α),
      l.foldl f acc = (l.filter fun k => !(k == j)).foldl f acc := by
  intro l
  induction l with
  | nil => intro acc; rfl
  | cons x t ih =>
    intro acc
    by_cases hx : x = j
    · subst hx
      rw [List.foldl_cons, hfix acc, List.filter_cons,
        if_neg (by simp), ih acc]
    · rw [List.foldl_cons, List.filter_cons, if_pos (by simp [hx]),
        List.foldl_cons, ih (f acc x)]

/-- **C6.** Closed-polyline skip: a front record whose first and last
vertices match within `1e-3` degrees in both latitude and longitude
contributes nothing to the label grid of its valid time — its loop step is
the identity — and the grid for that time equals the fold over the remaining
front records at that time. -/
theorem closed_polyline_contributes_nothing
    (rasterize : List ℚ → List ℚ → ℤ → ℤ → Bool) (R C : ℕ)
    (table : List FrontRecord) (i j : ℕ)
    (hclosed : |(table.getD j default).latitudes_deg.headD 0 -
        ((table.getD j default).latitudes_deg.getLast?).getD 0| <
          TOLERANCE_DEG ∧
      |(table.getD j default).longitudes_deg.headD 0 -
        ((table.getD j default).longitudes_deg.getLast?).getD 0| <
          TOLERANCE_DEG) :
    (∀ g : Grid, processFront rasterize R C table i g j = g) ∧
    gridForTimeIndex rasterize R C table i =
      ((frontIndicesAt table ((validTimes table).getD i 0)).filter
        fun k => !(k == j)).foldl
          (processFront rasterize R C table i) zeroGrid := by
  have hskip : ∀ g : Grid, processFront rasterize R C table i g j = g := by
    intro g
    unfold processFront
    rw [if_pos]
    unfold _is_polyline_closed
    rw [decide_eq_true_eq]
    exact hclosed
  exact ⟨hskip, foldl_skip_of_fixed (processFront rasterize R C table i) j
    hskip (frontIndicesAt table ((validTimes table).getD i 0)) zeroGrid⟩

/-- Concrete instantiation of the closed-polyline skip: a one-record table
whose single front is a closed polyline (identical first and last vertices)
produces the all-zero grid for its valid time. -/
theorem closed_polyline_contributes_nothing_witness :
    ((|([(0 : ℚ), 0] : List ℚ).headD 0 -
        (([(0 : ℚ), 0] : List ℚ).getLast?).getD 0| < TOLERANCE_DEG ∧
      |([(30 : ℚ), 30] : List ℚ).headD 0 -
        (([(30 : ℚ), 30] : List ℚ).getLast?).getD 0| < TOLERANCE_DEG) ∧
      (∀ g : Grid, processFront (fun _ _ _ _ => true) 2 2
        [⟨0, "warm", [0, 0], [30, 30]⟩] 0 g 0 = g)) ∧
    gridForTimeIndex (fun _ _ _ _ => true) 2 2
        [⟨0, "warm", [0, 0], [30, 30]⟩] 0 =
      ((frontIndicesAt [⟨0, "warm", [0, 0], [30, 30]⟩]
          ((validTimes [⟨0, "warm", [0, 0], [30, 30]⟩]).getD 0 0)).filter
        fun k => !(k == 0)).foldl
          (processFront (fun _ _ _ _ => true) 2 2
            [⟨0, "warm", [0, 0], [30, 30]⟩] 0) zeroGrid := by
  have h := closed_polyline_contributes_nothing (fun _ _ _ _ => true) 2 2
    [⟨0, "warm", [0, 0], [30, 30]⟩] 0 0 (by norm_num [TOLERANCE_DEG])
  exact ⟨⟨by norm_num [TOLERANCE_DEG], h.1⟩, h.2⟩

/-! ### The cold-front labeling bug of `many_polylines_to_narr_grid`

A two-record table at one valid time: a warm front rasterizing to cell
(0, 0) and a cold front rasterizing to cell (1, 1).  Because the cold-front
branch reads the front type at the valid-time index `i = 0` (the warm
record) instead of the record index `j = 1`, the cold front's cells are
never written. -/

/-- The failing front table: a warm and a cold record at valid time 0. -/
def bugTable : List FrontRecord :=
  [⟨0, "warm", [10, 20], [30, 40]⟩, ⟨0, "cold", [50, 60], [70, 80]⟩]

/-- Rasterization used with `bugTable`: the warm polyline covers cell (0, 0),
the cold polyline covers cell (1, 1). -/
def bugRasterize : List ℚ → List ℚ → ℤ → ℤ → Bool :=
  fun lats _ i j =>
    if lats = [10, 20] then decide (i = 0 ∧ j = 0) else decide (i = 1 ∧ j = 1)

lemma bug_closed_0 : _is_polyline_closed [10, 20] [30, 40] = false := by
  unfold _is_polyline_closed
  rw [decide_eq_false_iff_not]
  intro h
  obtain ⟨h1, -⟩ := h
  norm_num [TOLERANCE_DEG] at h1

lemma bug_closed_1 : _is_polyline_closed [50, 60] [70, 80] = false := by
  unfold _is_polyline_closed
  rw [decide_eq_false_iff_not]
  intro h
  obtain ⟨h1, -⟩ := h
  norm_num [TOLERANCE_DEG] at h1

lemma bug_step0 (g : Grid) : processFront bugRasterize 2 2 bugTable 0 g 0 =
    overlayBinary 2 2 (bugRasterize [10, 20] [30, 40]) g
      WARM_FRONT_INTEGER_ID := by
  unfold processFront
  norm_num [bugTable, bug_closed_0, WARM_FRONT_STRING_ID]

lemma bug_step1 (g : Grid) : processFront bugRasterize 2 2 bugTable 0 g 1 = g := by
  unfold processFront
  norm_num [bugTable, bug_closed_1, WARM_FRONT_STRING_ID, COLD_FRONT_STRING_ID]
  rw [if_neg (by decide), if_neg (by decide)]

/-- **C4 (code bug).** On `bugTable`, the cold record (index 1) is non-closed
and rasterizes to cell (1, 1), yet the output of
`many_polylines_to_narr_grid` for valid time 0 contains no cold cell at all —
the cold-front check reads the front type of record `i = 0` (the time index)
instead of record `j = 1`, so the cold front's cells stay unlabeled. -/
theorem many_polylines_cold_label_bug :
    many_polylines_to_narr_grid bugRasterize 2 2 bugTable =
      [(0, ⟨[(0, 0)], []⟩)] ∧
    (bugTable.getD 1 default).front_type = COLD_FRONT_STRING_ID ∧
    bugRasterize (bugTable.getD 1 default).latitudes_deg
      (bugTable.getD 1 default).longitudes_deg 1 1 = true ∧
    _is_polyline_closed (bugTable.getD 1 default).latitudes_deg
      (bugTable.getD 1 default).longitudes_deg = false := by
  refine ⟨?_, rfl, by decide, bug_closed_1⟩
  unfold many_polylines_to_narr_grid gridForTimeIndex
  rw [show validTimes bugTable = [0] from by decide]
  rw [show List.range ([(0 : ℤ)].length) = [0] from rfl]
  rw [List.map_cons, List.map_nil]
  rw [show frontIndicesAt bugTable (([0] : List ℤ).getD 0 0) = [0, 1]
    from by decide]
  rw [List.foldl_cons, List.foldl_cons, List.foldl_nil, bug_step0, bug_step1]
  decide

/-! ## Region extraction

`frontal_grid_to_regions` closes the grid with `_close_frontal_grid_matrix`,
labels it with `skimage.measure.label(..., connectivity=2)` and reads each
region's type from the closed grid at the region's first member cell.

`skimage.measure.label` is an external library; it is modelled from its
documentation: two pixels are connected when they are neighbors (here
8-connectivity) and have the same value, the background value 0 is not
labeled, and component ids 1..N are assigned in row-major order of each
component's first pixel.  The labeling is computed by iterated minimum-label
propagation: every cell starts with its own row-major index and repeatedly
takes the minimum over its same-valued neighbours; after `R*C` iterations
(at least the length of any duplicate-free path) each foreground cell holds
the minimal row-major index of its connected component. -/

/-- `_close_frontal_grid_matrix`: close the warm mask and the cold mask with
the 3×3 structuring element, then write the warm-closing cells and then the
cold-closing cells over the input grid (so a cell in both closings ends up
cold, and cells in neither keep their original value). -/
def _close_frontal_grid_matrix (R C : ℕ) (g : Grid) : Grid := fun i j =>
  if binary_closing R C
      (fun a b => decide (g a b = COLD_FRONT_INTEGER_ID)) i j then
    COLD_FRONT_INTEGER_ID
  else if binary_closing R C
      (fun a b => decide (g a b = WARM_FRONT_INTEGER_ID)) i j then
    WARM_FRONT_INTEGER_ID
  else g i j

/-- Row-major index of a cell. -/
def cellIdx (C : ℕ) (p : ℤ × ℤ) : ℤ := p.1 * C + p.2

/-- The eight neighbour offsets (8-connectivity). -/
def neighborOffsets : List (ℤ × ℤ) :=
  [(-1, -1), (-1, 0), (-1, 1), (0, -1), (0, 1), (1, -1), (1, 0), (1, 1)]

/-- Two cells are label-connected neighbours: both inside the window,
distinct, 8-adjacent, and holding the same nonzero value. -/
def sameValAdj (R C : ℕ) (g : Grid) (p q : ℤ × ℤ) : Prop :=
  inWindow R C p ∧ inWindow R C q ∧ p ≠ q ∧
    g p.1 p.2 ≠ 0 ∧ g p.1 p.2 = g q.1 q.2 ∧
    |p.1 - q.1| ≤ 1 ∧ |p.2 - q.2| ≤ 1

instance (R C : ℕ) (g : Grid) (p q : ℤ × ℤ) :
    Decidable (sameValAdj R C g p q) := by
  unfold sameValAdj; infer_instance

/-- One step of minimum-label propagation. -/
def labStep (R C : ℕ) (g : Grid) (f : (ℤ × ℤ) → ℤ) : (ℤ × ℤ) → ℤ := fun p =>
  (neighborOffsets.filterMap fun o =>
      if sameValAdj R C g p (p.1 + o.1, p.2 + o.2)
      then some (f (p.1 + o.1, p.2 + o.2)) else none).foldl min (f p)

/-- `n` steps of minimum-label propagation from the row-major indices. -/
def labN (R C : ℕ) (g : Grid) : ℕ → (ℤ × ℤ) → ℤ
  | 0 => cellIdx C
  | n + 1 => labStep R C g (labN R C g n)

/-- The component label of each cell: the minimal row-major index reachable
through same-valued 8-adjacent steps (reached after `R*C` propagation
steps). -/
def labels (R C : ℕ) (g : Grid) : (ℤ × ℤ) → ℤ := labN R C g (R * C)

/-- `q` is reachable from `p` in at most `n` same-valued adjacency steps. -/
def reachN (R C : ℕ) (g : Grid) : ℕ → (ℤ × ℤ) → (ℤ × ℤ) → Prop
  | 0, p, q => p = q
  | n + 1, p, q => reachN R C g n p q ∨
      ∃ r ∈ window R C, reachN R C g n p r ∧ sameValAdj R C g r q

/-- `q` is reachable from `p` through same-valued 8-adjacent steps. -/
def Reach (R C : ℕ) (g : Grid) (p q : ℤ × ℤ) : Prop :=
  ∃ n, reachN R C g n p q

/-- First-occurrence deduplication with explicit structural fuel
(`fuel ≥ length` keeps every first occurrence, in order). -/
def dedupKeepFirstAux : ℕ → List ℤ → List ℤ
  | 0, _ => []
  | _, [] => []
  | fuel + 1, x :: t =>
    x :: dedupKeepFirstAux fuel (t.filter fun y => !(y == x))

/-- Deduplication keeping the first occurrence of each value, in order —
the order in which `skimage.measure.label` assigns component ids (row-major
first encounter). -/
def dedupKeepFirst (l : List ℤ) : List ℤ := dedupKeepFirstAux l.length l

/-- The row-major list of foreground (nonzero) cells of the grid. -/
def foregroundCells (R C : ℕ) (g : Grid) : List (ℤ × ℤ) :=
  (window R C).filter fun p => decide (g p.1 p.2 ≠ 0)

/-- The component labels in the order skimage assigns ids 1..N: row-major
first encounter over the foreground cells. -/
def componentIds (R C : ℕ) (g : Grid) : List ℤ :=
  dedupKeepFirst ((foregroundCells R C g).map (labels R C g))

/-- The member cells of the component labeled `v`, in row-major order
(`numpy.where(region_matrix == i + 1)`). -/
def regionMembers (R C : ℕ) (g : Grid) (v : ℤ) : List (ℤ × ℤ) :=
  (window R C).filter fun p =>
    decide (g p.1 p.2 ≠ 0 ∧ labels R C g p = v)

/-- The front-type string of the component labeled `v`, read from the closed
grid at the component's first member cell (`front_type_by_region`). -/
def regionType (R C : ℕ) (closed : Grid) (v : ℤ) : String :=
  let q := (regionMembers R C closed v).headD (0, 0)
  if closed q.1 q.2 = WARM_FRONT_INTEGER_ID then WARM_FRONT_STRING_ID
  else if closed q.1 q.2 = COLD_FRONT_INTEGER_ID then COLD_FRONT_STRING_ID
  else ""

/-- `frontal_grid_to_regions`: close the grid, label the same-valued
8-connected components, and for each component id (ascending) emit its member
cells and the front-type string read from the closed grid at the component's
first member cell. -/
def frontal_grid_to_regions (R C : ℕ) (g : Grid) :
    List (List (ℤ × ℤ)) × List String :=
  let closed := _close_frontal_grid_matrix R C g
  let ids := componentIds R C closed
  (ids.map fun v => regionMembers R C closed v,
    ids.map fun v => regionType R C closed v)

lemma sameValAdj_symm {R C : ℕ} {g : Grid} {p q : ℤ × ℤ}
    (h : sameValAdj R C g p q) : sameValAdj R C g q p := by
  obtain ⟨h1, h2, h3, h4, h5, h6, h7⟩ := h
  refine ⟨h2, h1, h3.symm, by rw [← h5]; exact h4, h5.symm, ?_, ?_⟩
  · rw [abs_sub_comm]; exact h6
  · rw [abs_sub_comm]; exact h7

lemma reachN_mono {R C : ℕ} {g : Grid} {m n : ℕ} (hmn : m ≤ n)
    {p q : ℤ × ℤ} (h : reachN R C g m p q) : reachN R C g n p q := by
  induction n with
  | zero =>
    have hm : m = 0 := Nat.le_zero.mp hmn
    subst hm
    exact h
  | succ k ih =>
    rcases Nat.lt_or_ge m (k + 1) with hlt | hge
    · exact Or.inl (ih (Nat.lt_succ_iff.mp hlt))
    · have : m = k + 1 := le_antisymm hmn hge
      subst this
      exact h

lemma reachN_trans {R C : ℕ} {g : Grid} {m n : ℕ} {p q r : ℤ × ℤ}
    (h1 : reachN R C g m p q) (h2 : reachN R C g n q r) :
    reachN R C g (m + n) p r := by
  induction n generalizing r with
  | zero =>
    cases h2
    exact h1
  | succ k ih =>
    rcases h2 with h2 | ⟨s, hs, hqs, hadj⟩
    · exact reachN_mono (by omega) (ih h2)
    · exact Or.inr ⟨s, hs, ih hqs, hadj⟩

lemma reachN_symm {R C : ℕ} {g : Grid} {n : ℕ} {p q : ℤ × ℤ}
    (h : reachN R C g n p q) : reachN R C g n q p := by
  induction n generalizing q with
  | zero =>
    cases h
    rfl
  | succ k ih =>
    rcases h with h | ⟨r, hr, hpr, hadj⟩
    · exact reachN_mono (Nat.le_succ k) (ih h)
    · have hq : reachN R C g 1 q r := by
        refine Or.inr ⟨q, ?_, rfl, sameValAdj_symm hadj⟩
        rw [mem_window]
        exact (sameValAdj_symm hadj).1
      have := reachN_trans hq (ih hpr)
      exact reachN_mono (by omega) this

lemma reach_symm {R C : ℕ} {g : Grid} {p q : ℤ × ℤ}
    (h : Reach R C g p q) : Reach R C g q p := by
  obtain ⟨n, hn⟩ := h
  exact ⟨n, reachN_symm hn⟩

lemma reach_trans {R C : ℕ} {g : Grid} {p q r : ℤ × ℤ}
    (h1 : Reach R C g p q) (h2 : Reach R C g q r) : Reach R C g p r := by
  obtain ⟨m, hm⟩ := h1
  obtain ⟨n, hn⟩ := h2
  exact ⟨m + n, reachN_trans hm hn⟩

/-- Along a same-valued chain the grid value is preserved. -/
lemma reachN_value {R C : ℕ} {g : Grid} {n : ℕ} {p q : ℤ × ℤ}
    (h : reachN R C g n p q) : p = q ∨ g p.1 p.2 = g q.1 q.2 := by
  induction n generalizing q with
  | zero =>
    cases h
    exact Or.inl rfl
  | succ k ih =>
    rcases h with h | ⟨r, -, hpr, hadj⟩
    · exact ih h
    · right
      rcases ih hpr with rfl | hval
      · exact hadj.2.2.2.2.1
      · exact hval.trans hadj.2.2.2.2.1

/-- Along a nontrivial same-valued chain the endpoints lie in the window. -/
lemma reachN_window {R C : ℕ} {g : Grid} {n : ℕ} {p q : ℤ × ℤ}
    (h : reachN R C g n p q) : p = q ∨ (inWindow R C p ∧ inWindow R C q) := by
  induction n generalizing q with
  | zero =>
    cases h
    exact Or.inl rfl
  | succ k ih =>
    rcases h with h | ⟨r, -, hpr, hadj⟩
    · exact ih h
    · right
      rcases ih hpr with rfl | hval
      · exact ⟨hadj.1, hadj.2.1⟩
      · exact ⟨hval.1, hadj.2.1⟩

lemma neighborOffsets_complete {a b : ℤ} (ha : |a| ≤ 1) (hb : |b| ≤ 1)
    (hne : ¬(a = 0 ∧ b = 0)) : (a, b) ∈ neighborOffsets := by
  have ha' : a = -1 ∨ a = 0 ∨ a = 1 := by
    rcases abs_le.mp ha with ⟨h1, h2⟩
    omega
  have hb' : b = -1 ∨ b = 0 ∨ b = 1 := by
    rcases abs_le.mp hb with ⟨h1, h2⟩
    omega
  rcases ha' with rfl | rfl | rfl <;> rcases hb' with rfl | rfl | rfl <;>
    first
      | decide
      | exact absurd ⟨rfl, rfl⟩ hne

lemma labN_succ_apply (R C : ℕ) (g : Grid) (k : ℕ) (p : ℤ × ℤ) :
    labN R C g (k + 1) p =
      (neighborOffsets.filterMap fun o =>
          if sameValAdj R C g p (p.1 + o.1, p.2 + o.2)
          then some (labN R C g k (p.1 + o.1, p.2 + o.2)) else none).foldl
        min (labN R C g k p) := rfl

/-- After `n` propagation steps every cell holds the minimum row-major index
over the cells that reach it in at most `n` same-valued steps, and this
minimum is attained. -/
lemma labN_spec (R C : ℕ) (g : Grid) :
    ∀ (n : ℕ) (p : ℤ × ℤ),
      (∃ d, reachN R C g n d p ∧ labN R C g n p = cellIdx C d) ∧
      (∀ d, reachN R C g n d p → labN R C g n p ≤ cellIdx C d) := by
  intro n
  induction n with
  | zero =>
    intro p
    refine ⟨⟨p, rfl, rfl⟩, fun d hd => ?_⟩
    cases hd
    exact le_refl _
  | succ k ih =>
    intro p
    constructor
    · rw [labN_succ_apply]
      rcases @foldl_min_mem
          (neighborOffsets.filterMap fun o =>
            if sameValAdj R C g p (p.1 + o.1, p.2 + o.2)
            then some (labN R C g k (p.1 + o.1, p.2 + o.2)) else none)
          (labN R C g k p) with hmem | heq
      · rw [List.mem_filterMap] at hmem
        obtain ⟨o, -, hval⟩ := hmem
        by_cases hadj : sameValAdj R C g p (p.1 + o.1, p.2 + o.2)
        · rw [if_pos hadj] at hval
          obtain ⟨d, hd, heq'⟩ := (ih (p.1 + o.1, p.2 + o.2)).1
          refine ⟨d, Or.inr ⟨(p.1 + o.1, p.2 + o.2), ?_, hd,
            sameValAdj_symm hadj⟩, ?_⟩
          · rw [mem_window]
            exact hadj.2.1
          · rw [← Option.some_inj.mp hval]
            exact heq'
        · rw [if_neg hadj] at hval
          exact absurd hval (by simp)
      · obtain ⟨d, hd, heq'⟩ := (ih p).1
        exact ⟨d, Or.inl hd, heq.trans heq'⟩
    · intro d hd
      rw [labN_succ_apply]
      rcases hd with hd | ⟨r, -, hdr, hadj⟩
      · exact le_trans (foldl_min_le _ (Or.inr rfl)) ((ih p).2 d hd)
      · have hidx := (ih r).2 d hdr
        have hcell : ((p.1 + (r.1 - p.1), p.2 + (r.2 - p.2)) : ℤ × ℤ) = r :=
          Prod.ext (by ring) (by ring)
        have hne : ¬(r.1 - p.1 = 0 ∧ r.2 - p.2 = 0) := by
          rintro ⟨h1, h2⟩
          exact hadj.2.2.1 (Prod.ext (by omega) (by omega))
        have hoff : ((r.1 - p.1, r.2 - p.2) : ℤ × ℤ) ∈ neighborOffsets := by
          exact neighborOffsets_complete hadj.2.2.2.2.2.1
            hadj.2.2.2.2.2.2 hne
        have hmem : labN R C g k r ∈
            neighborOffsets.filterMap fun o =>
              if sameValAdj R C g p (p.1 + o.1, p.2 + o.2)
              then some (labN R C g k (p.1 + o.1, p.2 + o.2)) else none := by
          rw [List.mem_filterMap]
          refine ⟨(r.1 - p.1, r.2 - p.2), hoff, ?_⟩
          dsimp only
          rw [hcell, if_pos (sameValAdj_symm hadj)]
        exact le_trans (foldl_min_le _ (Or.inl hmem)) hidx

/-- A same-valued adjacency path from `d` to `p`: the cell list, its first
and last elements, chained by `sameValAdj`. -/
def IsPath (R C : ℕ) (g : Grid) (l : List (ℤ × ℤ)) (d p : ℤ × ℤ) : Prop :=
  l.head? = some d ∧ l.getLast? = some p ∧ l.Chain' (sameValAdj R C g)

lemma reachN_to_path {R C : ℕ} {g : Grid} :
    ∀ {n : ℕ} {d p : ℤ × ℤ}, reachN R C g n d p →
      ∃ l, IsPath R C g l d p ∧ l.length ≤ n + 1 := by
  intro n
  induction n with
  | zero =>
    intro d p h
    cases h
    exact ⟨[d], ⟨rfl, rfl, List.chain'_singleton d⟩, by simp⟩
  | succ k ih =>
    intro d p h
    rcases h with h | ⟨r, -, hdr, hadj⟩
    · obtain ⟨l, hl, hlen⟩ := ih h
      exact ⟨l, hl, by omega⟩
    · obtain ⟨l, ⟨hhead, hlast, hchain⟩, hlen⟩ := ih hdr
      have hlne : l ≠ [] := by
        intro hnil
        rw [hnil] at hhead
        exact Option.noConfusion hhead
      refine ⟨l ++ [p], ⟨?_, List.getLast?_concat l, ?_⟩, ?_⟩
      · rw [List.head?_append_of_ne_nil _ hlne]
        exact hhead
      · rw [List.chain'_append]
        refine ⟨hchain, List.chain'_singleton p, ?_⟩
        intro x hx y hy
        simp only [hlast, Option.mem_def, Option.some_inj] at hx
        simp only [List.head?_cons, Option.mem_def, Option.some_inj] at hy
        subst hx
        subst hy
        exact hadj
      · rw [List.length_append, List.length_singleton]
        omega

lemma path_to_reachN {R C : ℕ} {g : Grid} (l : List (ℤ × ℤ)) (d p : ℤ × ℤ)
    (hl : IsPath R C g l d p) : reachN R C g (l.length - 1) d p := by
  induction l using List.reverseRecOn generalizing p with
  | nil => exact absurd hl.1 (by simp)
  | append_singleton t a ih =>
    obtain ⟨hhead, hlast, hchain⟩ := hl
    rw [List.getLast?_concat, Option.some_inj] at hlast
    subst hlast
    rcases List.eq_nil_or_concat t with rfl | ⟨t', b, rfl⟩
    · rw [List.nil_append, List.head?_cons, Option.some_inj] at hhead
      subst hhead
      exact reachN_mono (Nat.zero_le _) rfl
    · simp only [List.concat_eq_append] at ih hhead hchain ⊢
      have htne : (t' ++ [b]) ≠ [] := by simp
      have hchain' := List.chain'_append.mp hchain
      have hjunction : sameValAdj R C g b a :=
        hchain'.2.2 b (by rw [List.getLast?_concat]; rfl) a
          (by rw [List.head?_cons]; rfl)
      have hihead : (t' ++ [b]).head? = some d := by
        rw [List.head?_append_of_ne_nil _ htne] at hhead
        exact hhead
      have hreach := ih b ⟨hihead, List.getLast?_concat t', hchain'.1⟩
      have hlen1 : (t' ++ [b]).length - 1 = t'.length := by simp
      have hlen2 : ((t' ++ [b]) ++ [a]).length - 1 = t'.length + 1 := by simp
      rw [hlen1] at hreach
      rw [hlen2]
      refine Or.inr ⟨b, ?_, hreach, hjunction⟩
      rw [mem_window]
      exact hjunction.1

lemma head?_take_pos {α : Type _} (l : List α) (n : ℕ) (hn : 0 < n) :
    (l.take n).head? = l.head? := by
  cases l with
  | nil => simp
  | cons a t =>
    cases n with
    | zero => exact absurd hn (by omega)
    | succ m => simp [List.take_succ_cons]

/-- Every same-valued path can be shortened to a duplicate-free path with the
same endpoints. -/
lemma path_shorten {R C : ℕ} {g : Grid} :
    ∀ (N : ℕ) (l : List (ℤ × ℤ)) (d p : ℤ × ℤ), l.length ≤ N →
      IsPath R C g l d p →
      ∃ l', IsPath R C g l' d p ∧ l'.Nodup ∧ l'.length ≤ l.length := by
  intro N
  induction N with
  | zero =>
    intro l d p hlen hl
    rw [Nat.le_zero, List.length_eq_zero] at hlen
    subst hlen
    exact absurd hl.1 (by simp)
  | succ N ih =>
    intro l d p hlen hl
    by_cases hnd : l.Nodup
    · exact ⟨l, hl, hnd, le_refl _⟩
    · rw [List.nodup_iff_get?_ne_get?] at hnd
      push_neg at hnd
      obtain ⟨i, j, hij, hj, hdup⟩ := hnd
      have hi : i < l.length := lt_trans hij hj
      rw [List.get?_eq_get hi, List.get?_eq_get hj, Option.some_inj] at hdup
      obtain ⟨hhead, hlast, hchain⟩ := hl
      set l₂ := l.take (i + 1) ++ l.drop (j + 1) with hl₂
      have hlentake : (l.take (i + 1)).length = i + 1 := by
        rw [List.length_take]
        omega
      have hlen₂ : l₂.length = i + 1 + (l.length - (j + 1)) := by
        rw [hl₂, List.length_append, hlentake, List.length_drop]
      have hlt : l₂.length < l.length := by omega
      have hpath₂ : IsPath R C g l₂ d p := by
        refine ⟨?_, ?_, ?_⟩
        · rw [hl₂, List.head?_append_of_ne_nil, head?_take_pos l (i + 1) (by omega)]
          · exact hhead
          · intro hnil
            have := congrArg List.length hnil
            rw [hlentake] at this
            simp at this
        · rcases Nat.lt_or_ge (j + 1) l.length with hjlt | hjge
          · have hdropne : l.drop (j + 1) ≠ [] := by
              intro hnil
              have := congrArg List.length hnil
              rw [List.length_drop] at this
              simp at this
              omega
            rw [hl₂, List.getLast?_append_of_ne_nil _ hdropne]
            have hsplit := List.take_append_drop (j + 1) l
            calc (l.drop (j + 1)).getLast?
                = (l.take (j + 1) ++ l.drop (j + 1)).getLast? :=
                  (List.getLast?_append_of_ne_nil _ hdropne).symm
              _ = l.getLast? := by rw [hsplit]
              _ = some p := hlast
          · have hj1 : j + 1 = l.length := by omega
            have hdropnil : l.drop (j + 1) = [] := by
              rw [List.drop_eq_nil_iff]
              omega
            rw [hl₂, hdropnil, List.append_nil]
            have hjlast : l.get ⟨j, hj⟩ = p := by
              have := List.getLast?_eq_getElem? l
              rw [hlast] at this
              have hlen1 : l.length - 1 = j := by omega
              rw [hlen1] at this
              rw [List.getElem?_eq_getElem hj] at this
              have := Option.some_inj.mp this.symm
              rw [← this]
              simp [List.get_eq_getElem]
            rw [List.getLast?_eq_getElem?, hlentake]
            have : i + 1 - 1 = i := by omega
            rw [this, List.getElem?_take_of_lt (by omega : i < i + 1),
              List.getElem?_eq_getElem hi]
            rw [Option.some_inj]
            rw [← hjlast, ← hdup]
            simp [List.get_eq_getElem]
        · rw [hl₂, List.chain'_append]
          refine ⟨hchain.take _, hchain.drop _, ?_⟩
          intro x hx y hy
          rcases Nat.lt_or_ge (j + 1) l.length with hjlt | hjge
          · have hxval : x = l.get ⟨i, hi⟩ := by
              rw [List.getLast?_eq_getElem?, hlentake] at hx
              have : i + 1 - 1 = i := by omega
              rw [this, List.getElem?_take_of_lt (by omega : i < i + 1),
                List.getElem?_eq_getElem hi] at hx
              rw [Option.mem_def, Option.some_inj] at hx
              rw [← hx]
              simp [List.get_eq_getElem]
            have hyval : y = l.get ⟨j + 1, hjlt⟩ := by
              rw [List.head?_drop, List.getElem?_eq_getElem hjlt] at hy
              rw [Option.mem_def, Option.some_inj] at hy
              rw [← hy]
              simp [List.get_eq_getElem]
            have hadj := List.chain'_iff_get.mp hchain j (by omega)
            rw [hxval, hyval]
            rw [hdup]
            convert hadj using 2
          · have hdropnil : l.drop (j + 1) = [] := by
              rw [List.drop_eq_nil_iff]
              omega
            rw [hdropnil] at hy
            simp at hy
      obtain ⟨l', hp', hnd', hle'⟩ := ih l₂ d p (by omega) hpath₂
      exact ⟨l', hp', hnd', by omega⟩

lemma window_length (R C : ℕ) : (window R C).length = R * C := by
  unfold window
  induction R with
  | zero => simp
  | succ n ihn =>
    rw [List.range_succ, List.flatMap_append, List.length_append, ihn]
    simp [Nat.succ_mul]

lemma nodup_window_sublist_length {R C : ℕ} (l : List (ℤ × ℤ))
    (hnd : l.Nodup) (hsub : ∀ x ∈ l, x ∈ window R C) : l.length ≤ R * C := by
  classical
  have h1 : l.toFinset.card = l.length := List.toFinset_card_of_nodup hnd
  have h2 : l.toFinset ⊆ (window R C).toFinset := by
    intro x hx
    rw [List.mem_toFinset] at hx ⊢
    exact hsub x hx
  have h3 := Finset.card_le_card h2
  have h4 := List.toFinset_card_le (window R C)
  rw [window_length] at h4
  omega

lemma path_mem_window {R C : ℕ} {g : Grid} (l : List (ℤ × ℤ))
    (hchain : l.Chain' (sameValAdj R C g)) (hlen : 2 ≤ l.length) :
    ∀ x ∈ l, x ∈ window R C := by
  intro x hx
  obtain ⟨⟨k, hk⟩, rfl⟩ := List.mem_iff_get.mp hx
  rcases Nat.lt_or_ge k (l.length - 1) with hlt | hge
  · have hadj := List.chain'_iff_get.mp hchain k hlt
    rw [mem_window]
    exact hadj.1
  · have hk1 : 1 ≤ k := by omega
    have hadj := List.chain'_iff_get.mp hchain (k - 1) (by omega)
    have heq : l.get ⟨k - 1 + 1, by omega⟩ = l.get ⟨k, hk⟩ := by
      congr 1
      apply Fin.ext
      simp
      omega
    rw [heq] at hadj
    rw [mem_window]
    exact hadj.2.1

/-- Saturation: reachability in any number of steps implies reachability in
at most `R*C` steps (a duplicate-free path visits at most `R*C` cells). -/
lemma reach_iff_reachRC {R C : ℕ} {g : Grid} (d p : ℤ × ℤ) :
    Reach R C g d p ↔ reachN R C g (R * C) d p := by
  constructor
  · rintro ⟨n, hn⟩
    obtain ⟨l, hpath, -⟩ := reachN_to_path hn
    obtain ⟨l', hpath', hnd, -⟩ :=
      path_shorten l.length l d p (le_refl _) hpath
    rcases Nat.lt_or_ge l'.length 2 with hsmall | hbig
    · have hne : l' ≠ [] := by
        intro hnil
        rw [hnil] at hpath'
        exact Option.noConfusion hpath'.1
      obtain ⟨a, rfl⟩ : ∃ a, l' = [a] := by
        cases l' with
        | nil => exact absurd rfl hne
        | cons a t =>
          cases t with
          | nil => exact ⟨a, rfl⟩
          | cons b t' =>
            rw [List.length_cons, List.length_cons] at hsmall
            exact absurd hsmall (by omega)
      have hda : a = d := by
        have := hpath'.1
        simp at this
        exact this
      have hpa : a = p := by
        have := hpath'.2.1
        simp at this
        exact this
      have : d = p := by rw [← hda, hpa]
      subst this
      exact reachN_mono (Nat.zero_le _) rfl
    · have hmem := path_mem_window l' hpath'.2.2 hbig
      have hlen := nodup_window_sublist_length l' hnd hmem
      have hreach := path_to_reachN l' d p hpath'
      exact reachN_mono (by omega) hreach
  · intro h
    exact ⟨R * C, h⟩

lemma labels_le_self_idx (R C : ℕ) (g : Grid) (p : ℤ × ℤ) :
    labels R C g p ≤ cellIdx C p :=
  (labN_spec R C g (R * C) p).2 p (reachN_mono (Nat.zero_le _) rfl)

/-- Connected cells carry the same component label. -/
lemma labels_eq_of_reach {R C : ℕ} {g : Grid} {p q : ℤ × ℤ}
    (h : Reach R C g p q) : labels R C g p = labels R C g q := by
  obtain ⟨d, hd, heqd⟩ := (labN_spec R C g (R * C) p).1
  obtain ⟨e, he, heqe⟩ := (labN_spec R C g (R * C) q).1
  have hdq : reachN R C g (R * C) d q :=
    (reach_iff_reachRC d q).mp (reach_trans ⟨R * C, hd⟩ h)
  have hep : reachN R C g (R * C) e p :=
    (reach_iff_reachRC e p).mp (reach_trans ⟨R * C, he⟩ (reach_symm h))
  have h1 : labels R C g q ≤ labels R C g p := by
    unfold labels
    rw [heqd]
    exact (labN_spec R C g (R * C) q).2 d hdq
  have h2 : labels R C g p ≤ labels R C g q := by
    unfold labels
    rw [heqe]
    exact (labN_spec R C g (R * C) p).2 e hep
  exact le_antisymm h2 h1

/-- The component label of a cell is the row-major index of an actual cell of
its component, which itself carries the same label. -/
lemma labels_attained (R C : ℕ) (g : Grid) (p : ℤ × ℤ) :
    ∃ d, reachN R C g (R * C) d p ∧ labels R C g p = cellIdx C d ∧
      labels R C g d = cellIdx C d := by
  obtain ⟨d, hd, heqd⟩ := (labN_spec R C g (R * C) p).1
  refine ⟨d, hd, heqd, ?_⟩
  have hsame := labels_eq_of_reach (R := R) (C := C) (g := g)
    (reach_symm ⟨R * C, hd⟩)
  unfold labels at hsame ⊢
  rw [← heqd, ← hsame]

lemma dedupKeepFirstAux_subset : ∀ (fuel : ℕ) (l : List ℤ),
    dedupKeepFirstAux fuel l ⊆ l := by
  intro fuel
  induction fuel with
  | zero =>
    intro l x hx
    cases l <;> exact absurd hx (List.not_mem_nil x)
  | succ n ih =>
    intro l x hx
    cases l with
    | nil => exact absurd hx (List.not_mem_nil x)
    | cons a t =>
      rcases List.mem_cons.mp hx with rfl | hx'
      · exact List.mem_cons_self x t
      · have := ih _ hx'
        exact List.mem_cons_of_mem a (List.mem_of_mem_filter this)

lemma mem_dedupKeepFirstAux : ∀ (fuel : ℕ) (l : List ℤ), l.length ≤ fuel →
    ∀ x, x ∈ dedupKeepFirstAux fuel l ↔ x ∈ l := by
  intro fuel
  induction fuel with
  | zero =>
    intro l hlen x
    rw [Nat.le_zero, List.length_eq_zero] at hlen
    subst hlen
    rfl
  | succ n ih =>
    intro l hlen x
    cases l with
    | nil => rfl
    | cons a t =>
      rw [List.length_cons] at hlen
      constructor
      · intro hx
        rcases List.mem_cons.mp hx with rfl | hx'
        · exact List.mem_cons_self x t
        · have hlen' : (t.filter fun y => !(y == a)).length ≤ n :=
            le_trans (List.length_filter_le _ t) (by omega)
          have := (ih _ hlen' x).mp hx'
          exact List.mem_cons_of_mem a (List.mem_of_mem_filter this)
      · intro hx
        rcases List.mem_cons.mp hx with rfl | hx'
        · exact List.mem_cons_self x _
        · by_cases hxa : x = a
          · subst hxa
            exact List.mem_cons_self x _
          · refine List.mem_cons_of_mem a ?_
            have hlen' : (t.filter fun y => !(y == a)).length ≤ n :=
              le_trans (List.length_filter_le _ t) (by omega)
            refine (ih _ hlen' x).mpr ?_
            rw [List.mem_filter]
            exact ⟨hx', by simp [hxa]⟩

lemma mem_dedupKeepFirst (l : List ℤ) (x : ℤ) :
    x ∈ dedupKeepFirst l ↔ x ∈ l :=
  mem_dedupKeepFirstAux l.length l (le_refl _) x

lemma takeWhile_filter_comm (x y : ℤ) (hxy : x ≠ y) : ∀ (t : List ℤ),
    (t.filter fun w => !(w == x)).takeWhile (fun w => !(w == y)) =
      (t.takeWhile fun w => !(w == y)).filter fun w => !(w == x) := by
  intro t
  induction t with
  | nil => rfl
  | cons a s ih =>
    by_cases hay : a = y
    · subst hay
      rw [List.filter_cons, if_pos (by simp [Ne.symm hxy]),
        List.takeWhile_cons, if_neg (by simp), List.takeWhile_cons,
        if_neg (by simp), List.filter_nil]
    · by_cases hax : a = x
      · subst hax
        rw [List.filter_cons, if_neg (by simp), List.takeWhile_cons,
          if_pos (by simp [hay]), List.filter_cons, if_neg (by simp)]
        exact ih
      · rw [List.filter_cons, if_pos (by simp [hax]), List.takeWhile_cons,
          if_pos (by simp [hay]), List.takeWhile_cons, if_pos (by simp [hay]),
          List.filter_cons, if_pos (by simp [hax]), ih]

/-- If every value in the list is greater than all values occurring strictly
before its first occurrence, first-occurrence deduplication yields a strictly
ascending list. -/
lemma dedupKeepFirstAux_pairwise_lt : ∀ (fuel : ℕ) (l : List ℤ),
    l.length ≤ fuel →
    (∀ y ∈ l, ∀ z ∈ l.takeWhile (fun w => !(w == y)), z < y) →
    (dedupKeepFirstAux fuel l).Pairwise (· < ·) := by
  intro fuel
  induction fuel with
  | zero =>
    intro l hlen _
    rw [Nat.le_zero, List.length_eq_zero] at hlen
    subst hlen
    exact List.Pairwise.nil
  | succ n ih =>
    intro l hlen H
    cases l with
    | nil => exact List.Pairwise.nil
    | cons x t =>
      rw [List.length_cons] at hlen
      rw [dedupKeepFirstAux, List.pairwise_cons]
      constructor
      · intro y hy
        have hyt' := dedupKeepFirstAux_subset n _ hy
        rw [List.mem_filter] at hyt'
        obtain ⟨hyt, hyx⟩ := hyt'
        have hxy : ¬(x = y) := by
          intro h
          subst h
          simp at hyx
        refine H y (List.mem_cons_of_mem x hyt) x ?_
        rw [List.takeWhile_cons, if_pos (by simp [hxy])]
        exact List.mem_cons_self x _
      · have hlen' : (t.filter fun y => !(y == x)).length ≤ n :=
          le_trans (List.length_filter_le _ t) (by omega)
        refine ih _ hlen' ?_
        intro y hy z hz
        rw [List.mem_filter] at hy
        obtain ⟨hyt, hyx⟩ := hy
        have hxy : x ≠ y := by
          intro h
          subst h
          simp at hyx
        rw [takeWhile_filter_comm x y hxy t] at hz
        have hz' := List.mem_of_mem_filter hz
        refine H y (List.mem_cons_of_mem x hyt) z ?_
        rw [List.takeWhile_cons, if_pos (by simp [hxy])]
        exact List.mem_cons_of_mem x hz'

lemma window_pairwise_idx (R C : ℕ) :
    (window R C).Pairwise fun p q => cellIdx C p < cellIdx C q := by
  unfold window
  rw [List.pairwise_flatMap]
  constructor
  · intro i _
    rw [List.pairwise_map]
    refine List.Pairwise.imp ?_ (List.pairwise_lt_range C)
    intro j1 j2 h
    unfold cellIdx
    push_cast
    omega
  · refine List.Pairwise.imp ?_ (List.pairwise_lt_range R)
    intro a b hab x hx y hy
    rw [List.mem_map] at hx hy
    obtain ⟨j1, hj1, rfl⟩ := hx
    obtain ⟨j2, hj2, rfl⟩ := hy
    rw [List.mem_range] at hj1 hj2
    unfold cellIdx
    dsimp only
    have h1 : (a : ℤ) * C + j1 < (a + 1 : ℤ) * C := by
      have : (j1 : ℤ) < C := by exact_mod_cast hj1
      nlinarith
    have h2 : ((a : ℤ) + 1) * C ≤ (b : ℤ) * C := by
      have hab' : (a : ℤ) + 1 ≤ b := by exact_mod_cast hab
      have hC : (0 : ℤ) ≤ C := Int.ofNat_nonneg C
      nlinarith
    have h3 : (0 : ℤ) ≤ j2 := Int.ofNat_nonneg j2
    push_cast at h1 h2 ⊢
    nlinarith

/-- The component ids are emitted in strictly ascending order: the first
row-major encounter of each component happens at its minimal cell. -/
lemma componentIds_pairwise_lt (R C : ℕ) (g : Grid) :
    (componentIds R C g).Pairwise (· < ·) := by
  unfold componentIds dedupKeepFirst
  refine dedupKeepFirstAux_pairwise_lt _ _ (le_refl _) ?_
  intro y hy z hz
  rw [List.mem_map] at hy
  obtain ⟨p₀, hp₀, rfl⟩ := hy
  obtain ⟨d, hd, heqd, heqdd⟩ := labels_attained R C g p₀
  have hdfg : d ∈ foregroundCells R C g := by
    unfold foregroundCells at hp₀ ⊢
    rw [List.mem_filter] at hp₀ ⊢
    rcases reachN_value hd with rfl | hval
    · exact hp₀
    · refine ⟨?_, ?_⟩
      · rcases reachN_window hd with rfl | hw
        · exact hp₀.1
        · rw [mem_window]
          exact hw.1
      · rw [decide_eq_true_eq] at hp₀ ⊢
        rw [hval]
        exact hp₀.2
  rw [List.takeWhile_map, List.mem_map] at hz
  obtain ⟨q, hq, rfl⟩ := hz
  have hsplit := List.takeWhile_append_dropWhile
    ((fun w => !(w == labels R C g p₀)) ∘ labels R C g)
    (foregroundCells R C g)
  have hpw : (foregroundCells R C g).Pairwise
      fun p q => cellIdx C p < cellIdx C q :=
    (window_pairwise_idx R C).filter _
  rw [← hsplit] at hpw hdfg
  rw [List.pairwise_append] at hpw
  rcases List.mem_append.mp hdfg with hdpre | hdsuf
  · have hpred := List.mem_takeWhile_imp hdpre
    dsimp only [Function.comp] at hpred
    rw [Bool.not_eq_true', beq_eq_false_iff_ne] at hpred
    exact absurd (heqdd.trans heqd.symm) hpred
  · have hlt := hpw.2.2 q hq d hdsuf
    have hzle := labels_le_self_idx R C g q
    calc labels R C g q ≤ cellIdx C q := hzle
      _ < cellIdx C d := hlt
      _ = labels R C g p₀ := heqd.symm

lemma close_valid (R C : ℕ) (g : Grid)
    (hvalid : ∀ p ∈ window R C, 0 ≤ g p.1 p.2 ∧ g p.1 p.2 ≤ 2) :
    ∀ p ∈ window R C, 0 ≤ _close_frontal_grid_matrix R C g p.1 p.2 ∧
      _close_frontal_grid_matrix R C g p.1 p.2 ≤ 2 := by
  intro p hp
  unfold _close_frontal_grid_matrix
  split
  · norm_num [COLD_FRONT_INTEGER_ID]
  · split
    · norm_num [WARM_FRONT_INTEGER_ID]
    · exact hvalid p hp

lemma cellIdx_inj {R C : ℕ} {p q : ℤ × ℤ} (hp : inWindow R C p)
    (hq : inWindow R C q) (h : cellIdx C p = cellIdx C q) : p = q := by
  unfold cellIdx at h
  obtain ⟨hp1, hp2, hp3, hp4⟩ := hp
  obtain ⟨hq1, hq2, hq3, hq4⟩ := hq
  have hfst : p.1 = q.1 := by
    rcases lt_trichotomy p.1 q.1 with hlt | heq | hgt
    · nlinarith
    · exact heq
    · nlinarith
  refine Prod.ext hfst ?_
  rw [hfst] at h
  omega

/-- A region's cells all come from the foreground of the closed grid and
share its component label. -/
lemma mem_regionMembers (R C : ℕ) (g : Grid) (v : ℤ) (p : ℤ × ℤ) :
    p ∈ regionMembers R C g v ↔
      inWindow R C p ∧ g p.1 p.2 ≠ 0 ∧ labels R C g p = v := by
  unfold regionMembers
  rw [List.mem_filter, decide_eq_true_eq]
  constructor
  · rintro ⟨hw, h2, h3⟩
    rw [mem_window] at hw
    exact ⟨hw, h2, h3⟩
  · rintro ⟨hw, h2, h3⟩
    rw [← mem_window] at hw
    exact ⟨hw, h2, h3⟩

lemma labels_minCell (R C : ℕ) (g : Grid) (p : ℤ × ℤ)
    (hw : inWindow R C p) (hfg : g p.1 p.2 ≠ 0) :
    ∃ d, Reach R C g d p ∧ inWindow R C d ∧ g d.1 d.2 ≠ 0 ∧
      labels R C g p = cellIdx C d ∧ labels R C g d = cellIdx C d := by
  obtain ⟨d, hd, heqd, heqdd⟩ := labels_attained R C g p
  refine ⟨d, ⟨R * C, hd⟩, ?_, ?_, heqd, heqdd⟩
  · rcases reachN_window hd with rfl | hwin
    · exact hw
    · exact hwin.1
  · rcases reachN_value hd with rfl | hval
    · exact hfg
    · rw [hval]
      exact hfg

/-- **C7 (amended).** Region extraction: for every valid ternary grid,
`frontal_grid_to_regions` closes the grid, then labels the 8-connected
components of EQUAL-valued nonzero cells of the closed grid (warm-front and
cold-front cells never share a region), emits one region per component id in
strictly ascending order, and emits for each region the front type given by
its first member cell's POST-closing raster value, which is always warm or
cold and is shared by every cell of the region. -/
theorem frontal_grid_to_regions_spec (R C : ℕ) (g : Grid)
    (hvalid : ∀ p ∈ window R C, 0 ≤ g p.1 p.2 ∧ g p.1 p.2 ≤ 2) :
    frontal_grid_to_regions R C g =
      ((componentIds R C (_close_frontal_grid_matrix R C g)).map fun v =>
          regionMembers R C (_close_frontal_grid_matrix R C g) v,
        (componentIds R C (_close_frontal_grid_matrix R C g)).map fun v =>
          regionType R C (_close_frontal_grid_matrix R C g) v) ∧
    (componentIds R C (_close_frontal_grid_matrix R C g)).Pairwise (· < ·) ∧
    (∀ p q, Reach R C (_close_frontal_grid_matrix R C g) p q →
      labels R C (_close_frontal_grid_matrix R C g) p =
        labels R C (_close_frontal_grid_matrix R C g) q) ∧
    (∀ p, inWindow R C p → _close_frontal_grid_matrix R C g p.1 p.2 ≠ 0 →
      labels R C (_close_frontal_grid_matrix R C g) p ∈
        componentIds R C (_close_frontal_grid_matrix R C g)) ∧
    (∀ v ∈ componentIds R C (_close_frontal_grid_matrix R C g),
      regionMembers R C (_close_frontal_grid_matrix R C g) v ≠ [] ∧
      (∀ p, p ∈ regionMembers R C (_close_frontal_grid_matrix R C g) v ↔
        inWindow R C p ∧ _close_frontal_grid_matrix R C g p.1 p.2 ≠ 0 ∧
          labels R C (_close_frontal_grid_matrix R C g) p = v) ∧
      (∀ p ∈ regionMembers R C (_close_frontal_grid_matrix R C g) v,
        ∀ q ∈ regionMembers R C (_close_frontal_grid_matrix R C g) v,
          Reach R C (_close_frontal_grid_matrix R C g) p q) ∧
      (∀ p ∈ regionMembers R C (_close_frontal_grid_matrix R C g) v,
        _close_frontal_grid_matrix R C g p.1 p.2 =
          _close_frontal_grid_matrix R C g
            ((regionMembers R C (_close_frontal_grid_matrix R C g)
              v).headD (0, 0)).1
            ((regionMembers R C (_close_frontal_grid_matrix R C g)
              v).headD (0, 0)).2) ∧
      ((_close_frontal_grid_matrix R C g
            ((regionMembers R C (_close_frontal_grid_matrix R C g)
              v).headD (0, 0)).1
            ((regionMembers R C (_close_frontal_grid_matrix R C g)
              v).headD (0, 0)).2 = WARM_FRONT_INTEGER_ID ∧
          regionType R C (_close_frontal_grid_matrix R C g) v
            = WARM_FRONT_STRING_ID) ∨
        (_close_frontal_grid_matrix R C g
            ((regionMembers R C (_close_frontal_grid_matrix R C g)
              v).headD (0, 0)).1
            ((regionMembers R C (_close_frontal_grid_matrix R C g)
              v).headD (0, 0)).2 = COLD_FRONT_INTEGER_ID ∧
          regionType R C (_close_frontal_grid_matrix R C g) v
            = COLD_FRONT_STRING_ID))) := by
  set cl := _close_frontal_grid_matrix R C g with hcl
  have hclvalid := close_valid R C g hvalid
  rw [← hcl] at hclvalid
  refine ⟨rfl, componentIds_pairwise_lt R C cl,
    fun p q h => labels_eq_of_reach h, ?_, ?_⟩
  · intro p hw hfg
    unfold componentIds
    rw [mem_dedupKeepFirst, List.mem_map]
    refine ⟨p, ?_, rfl⟩
    unfold foregroundCells
    rw [List.mem_filter, decide_eq_true_eq]
    rw [← mem_window] at hw
    exact ⟨hw, hfg⟩
  · intro v hv
    have hvmem : ∃ p₀, inWindow R C p₀ ∧ cl p₀.1 p₀.2 ≠ 0 ∧
        labels R C cl p₀ = v := by
      unfold componentIds at hv
      rw [mem_dedupKeepFirst, List.mem_map] at hv
      obtain ⟨p₀, hp₀, hlab⟩ := hv
      unfold foregroundCells at hp₀
      rw [List.mem_filter, decide_eq_true_eq, mem_window] at hp₀
      exact ⟨p₀, hp₀.1, hp₀.2, hlab⟩
    obtain ⟨p₀, hw₀, hfg₀, hlab₀⟩ := hvmem
    have hne : regionMembers R C cl v ≠ [] := by
      intro hnil
      have : p₀ ∈ regionMembers R C cl v :=
        (mem_regionMembers R C cl v p₀).mpr ⟨hw₀, hfg₀, hlab₀⟩
      rw [hnil] at this
      exact List.not_mem_nil p₀ this
    have hmemchar := mem_regionMembers R C cl v
    have hreach2 : ∀ p ∈ regionMembers R C cl v,
        ∀ q ∈ regionMembers R C cl v, Reach R C cl p q := by
      intro p hp q hq
      obtain ⟨hwp, hfgp, hlabp⟩ := (hmemchar p).mp hp
      obtain ⟨hwq, hfgq, hlabq⟩ := (hmemchar q).mp hq
      obtain ⟨d, hdr, hdw, -, hdeq, -⟩ := labels_minCell R C cl p hwp hfgp
      obtain ⟨e, her, hew, -, heeq, -⟩ := labels_minCell R C cl q hwq hfgq
      have hde : d = e := by
        refine cellIdx_inj hdw hew ?_
        rw [← hdeq, ← heeq, hlabp, hlabq]
      subst hde
      exact reach_trans (reach_symm hdr) her
    have hheadmem : (regionMembers R C cl v).headD (0, 0) ∈
        regionMembers R C cl v := by
      cases hm : regionMembers R C cl v with
      | nil => exact absurd hm hne
      | cons a t =>
        rw [List.headD_cons]
        exact List.mem_cons_self a t
    obtain ⟨hwh, hfgh, hlabh⟩ := (hmemchar _).mp hheadmem
    have hsameval : ∀ p ∈ regionMembers R C cl v,
        cl p.1 p.2 = cl ((regionMembers R C cl v).headD (0, 0)).1
          ((regionMembers R C cl v).headD (0, 0)).2 := by
      intro p hp
      have hr := hreach2 p hp _ hheadmem
      obtain ⟨n, hn⟩ := hr
      rcases reachN_value hn with rfl | hval
      · rfl
      · exact hval
    have hheadval : cl ((regionMembers R C cl v).headD (0, 0)).1
          ((regionMembers R C cl v).headD (0, 0)).2 = WARM_FRONT_INTEGER_ID ∨
        cl ((regionMembers R C cl v).headD (0, 0)).1
          ((regionMembers R C cl v).headD (0, 0)).2 = COLD_FRONT_INTEGER_ID := by
      have hb := hclvalid _ ((mem_window' R C _).mpr hwh)
      unfold WARM_FRONT_INTEGER_ID COLD_FRONT_INTEGER_ID
      omega
    refine ⟨hne, hmemchar, hreach2, hsameval, ?_⟩
    rcases hheadval with hv1 | hv2
    · left
      refine ⟨hv1, ?_⟩
      unfold regionType
      rw [if_pos hv1]
    · right
      refine ⟨hv2, ?_⟩
      unfold regionType
      rw [if_neg (by rw [hv2]; norm_num [COLD_FRONT_INTEGER_ID,
        WARM_FRONT_INTEGER_ID]), if_pos hv2]

/-- A 1×2 grid holding a warm cell at (0, 0) and a cold cell at (0, 1). -/
def mixedPairGrid : Grid := fun i j =>
  if i = 0 ∧ j = 0 then 1 else if i = 0 ∧ j = 1 then 2 else 0

/-- **C7 (counterexample).** The original claim says the labeling treats ALL
nonzero cells as one foreground (8-adjacent warm and cold cells would merge
into one component).  On the 1×2 grid `[1, 2]` the two cells are 8-adjacent
and both nonzero after closing, yet no emitted region contains both:
`skimage.measure.label` connects only EQUAL values, so the warm cell and the
cold cell form two distinct regions. -/
theorem frontal_grid_to_regions_counterexample :
    (|(0 : ℤ) - 0| ≤ 1 ∧ |(0 : ℤ) - 1| ≤ 1 ∧
      ((0 : ℤ), (0 : ℤ)) ≠ ((0 : ℤ), (1 : ℤ)) ∧
      _close_frontal_grid_matrix 1 2 mixedPairGrid 0 0 ≠ 0 ∧
      _close_frontal_grid_matrix 1 2 mixedPairGrid 0 1 ≠ 0) ∧
    ∀ k : ℕ,
      ¬(((0 : ℤ), (0 : ℤ)) ∈
          (frontal_grid_to_regions 1 2 mixedPairGrid).1.getD k [] ∧
        ((0 : ℤ), (1 : ℤ)) ∈
          (frontal_grid_to_regions 1 2 mixedPairGrid).1.getD k []) := by
  constructor
  · refine ⟨by decide, by decide, by decide, by decide, by decide⟩
  · intro k
    have hout : (frontal_grid_to_regions 1 2 mixedPairGrid).1 =
        [[(0, 0)], [(0, 1)]] := by decide
    rw [hout]
    rcases k with _ | k
    · decide
    · rcases k with _ | k
      · decide
      · rw [List.getD_eq_default]
        · rintro ⟨h1, -⟩
          exact List.not_mem_nil _ h1
        · rw [List.length_cons, List.length_cons, List.length_nil]
          omega

/-- Concrete instantiation of the region-extraction theorem on the 1×2 grid
`[1, 2]`: the validity hypothesis holds and the theorem applies, giving the
structural output equality and the ascending component order. -/
theorem frontal_grid_to_regions_spec_witness :
    (∀ p ∈ window 1 2,
      0 ≤ mixedPairGrid p.1 p.2 ∧ mixedPairGrid p.1 p.2 ≤ 2) ∧
    frontal_grid_to_regions 1 2 mixedPairGrid =
      ((componentIds 1 2 (_close_frontal_grid_matrix 1 2 mixedPairGrid)).map
          fun v =>
            regionMembers 1 2
              (_close_frontal_grid_matrix 1 2 mixedPairGrid) v,
        (componentIds 1 2 (_close_frontal_grid_matrix 1 2 mixedPairGrid)).map
          fun v =>
            regionType 1 2
              (_close_frontal_grid_matrix 1 2 mixedPairGrid) v) ∧
    (componentIds 1 2
      (_close_frontal_grid_matrix 1 2 mixedPairGrid)).Pairwise (· < ·) :=
  ⟨by decide,
    (frontal_grid_to_regions_spec 1 2 mixedPairGrid (by decide)).1,
    (frontal_grid_to_regions_spec 1 2 mixedPairGrid (by decide)).2.1⟩

end FrontUtils
